import Mathlib

/-!
A shallow embedding of the BlockChat replicated state machine
(src/wallet.rs, src/node.rs, src/crypto.rs, src/error.rs).

Modelling conventions:
* Machine integers (`u64`, `usize`) are modelled as `Nat`.  Overflow never
  matters for the verified properties; `u64` subtractions in the source are
  guarded by the validation logic and are modelled with truncated `Nat`
  subtraction.
* `Hash` (a 32-byte SHA-256 digest) is modelled as `List Nat` (the bytes).
  The SHA-256 function itself is abstracted by an executable injective-style
  encoding (`digestTx`, `digestBlock`); no verified property depends on the
  concrete digest values beyond equality/inequality of concrete terms.
* `Address` (a hash of a public key, ordered bytewise in `BTreeMap`s) is
  modelled as `Nat`; `Address::invalid()` (the all-zero hash, bytewise
  minimal) is `0`, and `Address::from_public_key` is an injective map that
  never returns `0`.  `Nat` order stands for the bytewise order.
* RSA keypairs: a private key is a `Nat` `p`, its public key is `p + 1`
  (never the invalid key `0`).  A PKCS#1 v1.5 signature is modelled as the
  pair of the signing key and the signed hash; verification checks that the
  signature was produced over this hash by the key matching the envelope's
  public key.  `PublicKey::invalid()` (key `0`) verifies nothing.
* The `StdRng::from_seed(seed).gen_range(0..total_stake)` call in
  `Node::next_validator` is a deterministic pure function of the seed bytes
  and the bound; it is modelled by an explicit function parameter
  `draw : List Nat → Nat → Nat` which every node-level definition takes.
  `DrawValid draw` states the range contract `0 < s → draw h s < s`,
  which `gen_range(0..s)` guarantees.  Note that for `s = 1` every valid
  draw returns `0`, so concrete runs below that only ever elect among a
  single staker are independent of the concrete RNG.
* `&mut self` methods returning `Result` are modelled as pure functions
  returning the new state together with an `Option Error` (`none` = `Ok`).
  A Rust panic (a failed `assert!`/`unwrap`) is modelled by an outer
  `Option` being `none`.
* `BTreeMap` is modelled as an association list kept sorted by key
  (`mapInsert`/`mapLookup`/`mapErase`/`getOrInsert`), which reproduces the
  ascending-key iteration order the source relies on.
-/

set_option maxRecDepth 100000

namespace BlockChat

/-- Addresses: 32-byte digests ordered bytewise; modelled as `Nat`. -/
abbrev Address := Nat

/-- Hashes: 32-byte digests; modelled as the list of bytes. -/
abbrev Hash := List Nat

/-- `Address::invalid()`: the all-zero hash, minimal in the bytewise order. -/
def Address.invalid : Address := 0

/-- `RsaPublicKey::from(&priv)`: the public key matching private key `p`. -/
def pubOf (p : Nat) : Nat := p + 1

/-- `PublicKey::invalid()`: no corresponding private key. -/
def PublicKey.invalid : Nat := 0

/-- `Address::from_public_key`: digest of the public key; injective, never
the invalid (zero) address. -/
def Address.from_public_key (pk : Nat) : Address := pk + 1

/-- `error.rs`: the error taxonomy. -/
inductive Error where
  | InvalidSignature : Error
  | InsufficientFunds : Error
  | NonceReused (provided expected : Nat) : Error
  | InvalidBlockValidator : Error
deriving DecidableEq

/-- `wallet.rs`: the kind of a transaction. -/
inductive TransactionKind where
  | Coin (amount : Nat) (receiver : Address) : TransactionKind
  | Message (text : String) (receiver : Address) : TransactionKind
  | Stake (amount : Nat) : TransactionKind
deriving DecidableEq

/-- `wallet.rs`: a transaction. -/
structure Transaction where
  sender_address : Address
  kind : TransactionKind
  nonce : Nat
deriving DecidableEq

/-- `crypto.rs`: a signed envelope. -/
structure Signed (α : Type) where
  public_key : Nat
  signature : List Nat
  hash : Hash
  data : α
deriving DecidableEq

/-- `FEE_PERCENT` in `wallet.rs`. -/
def FEE_PERCENT : Nat := 3

/-- `Transaction::fees`. -/
def Transaction.fees (t : Transaction) : Nat :=
  match t.kind with
  | .Coin amount _ => amount * FEE_PERCENT / 100
  | .Message msg _ => msg.utf8ByteSize
  | .Stake _ => 0

/-- `Transaction::cost`. -/
def Transaction.cost (t : Transaction) : Nat :=
  (match t.kind with
   | .Coin amount _ => amount
   | .Message _ _ => 0
   | .Stake _ => 0) + t.fees

/-- `Transaction::receiver`. -/
def Transaction.receiver (t : Transaction) : Option Address :=
  match t.kind with
  | .Coin _ receiver => some receiver
  | .Message _ receiver => some receiver
  | .Stake _ => none

/-- Abstract canonical-encoding digest of a transaction kind. -/
def digestKind : TransactionKind → List Nat
  | .Coin a r => [0, a, r]
  | .Message s r => 1 :: r :: (s.toUTF8.toList.map (fun b => b.toNat))
  | .Stake a => [2, a]

/-- Abstract canonical-encoding digest of a transaction
(`Hash::digest` applied to a `Transaction`). -/
def digestTx (t : Transaction) : Hash :=
  100 :: t.sender_address :: t.nonce :: digestKind t.kind

/-- Abstract canonical-encoding digest of a signed transaction (the block
digest covers the whole envelopes, as JSON serialization does). -/
def digestSignedTx (s : Signed Transaction) : List Nat :=
  101 :: s.public_key :: s.signature.length ::
    (s.signature ++ s.hash.length :: s.hash ++ digestTx s.data)

/-- The signature bytes produced by private key `p` over hash `h`
(PKCS#1 v1.5 abstracted: determined by the key and the hash). -/
def mkSig (p : Nat) (h : Hash) : List Nat := p :: h

/-- RSA verification: the signature over `h` checks out under public key
`pk` iff it was produced by the matching private key; the invalid key `0`
verifies nothing. -/
def checkSig (pk : Nat) (sig : List Nat) (h : Hash) : Bool :=
  decide (0 < pk) && decide (sig = mkSig (pk - 1) h)

/-- `PrivateKey::sign`. -/
def sign {α : Type} (dig : α → Hash) (p : Nat) (data : α) : Signed α :=
  { public_key := pubOf p
    signature := mkSig p (dig data)
    hash := dig data
    data := data }

/-- `Signed::new_invalid`. -/
def Signed.new_invalid {α : Type} (dig : α → Hash) (data : α) : Signed α :=
  { public_key := PublicKey.invalid
    signature := []
    hash := dig data
    data := data }

/-- `Signed::verify`: recompute the hash, compare with the embedded one,
then verify the signature under the embedded public key.  `none` = `Ok`. -/
def Signed.verify {α : Type} (dig : α → Hash) (s : Signed α) : Option Error :=
  if dig s.data = s.hash then
    if checkSig s.public_key s.signature s.hash then none
    else some .InvalidSignature
  else some .InvalidSignature

/-! Sorted association lists standing for `BTreeMap`. -/

/-- `BTreeMap::get`. -/
def mapLookup {κ β : Type} [DecidableEq κ] (k : κ) : List (κ × β) → Option β
  | [] => none
  | (k', v) :: rest => if k = k' then some v else mapLookup k rest

/-- `BTreeMap::insert`, keeping the list sorted by `lt`. -/
def mapInsert {κ β : Type} [DecidableEq κ] (lt : κ → κ → Bool) (k : κ) (v : β) :
    List (κ × β) → List (κ × β)
  | [] => [(k, v)]
  | (k', v') :: rest =>
    if lt k k' then (k, v) :: (k', v') :: rest
    else if k = k' then (k, v) :: rest
    else (k', v') :: mapInsert lt k v rest

/-- `BTreeMap::remove` (keys are unique, so removing the first match). -/
def mapErase {κ β : Type} [DecidableEq κ] (k : κ) : List (κ × β) → List (κ × β)
  | [] => []
  | (k', v) :: rest => if k = k' then rest else (k', v) :: mapErase k rest

/-- `BTreeMap::entry(k).or_insert_with(|| d)`: the entry's current value
together with the map in which the entry is materialized. -/
def getOrInsert {κ β : Type} [DecidableEq κ] (lt : κ → κ → Bool) (k : κ) (d : β)
    (m : List (κ × β)) : β × List (κ × β) :=
  match mapLookup k m with
  | some v => (v, m)
  | none => (d, mapInsert lt k d m)

/-- Bytewise order of addresses (modelled by `Nat` order). -/
def addrLt (a b : Address) : Bool := decide (a < b)

/-- Lexicographic order of mempool keys `(sender_address, nonce)`. -/
def keyLt (a b : Address × Nat) : Bool :=
  decide (a.1 < b.1) || (decide (a.1 = b.1) && decide (a.2 < b.2))

/-! The wallet (`wallet.rs`). -/

/-- `wallet.rs`: per-address account state. -/
structure Wallet where
  address : Address
  balance : Nat
  stake : Nat
  nonce : Nat
deriving DecidableEq

/-- `Wallet::from_address`. -/
def Wallet.from_address (a : Address) : Wallet :=
  { address := a, balance := 0, stake := 0, nonce := 0 }

/-- `Wallet::available_funds` (`balance - stake`; the source maintains
`stake ≤ balance` so the `u64` subtraction never underflows). -/
def Wallet.available_funds (w : Wallet) : Nat := w.balance - w.stake

/-- `Wallet::staked_amount`. -/
def Wallet.staked_amount (w : Wallet) : Nat := w.stake

/-- `Wallet::add_funds`. -/
def Wallet.add_funds (w : Wallet) (amount : Nat) : Wallet :=
  { w with balance := w.balance + amount }

/-- `Wallet::set_stake`; `none` models the `assert!(amount <= self.balance)`
panic. -/
def Wallet.set_stake (w : Wallet) (amount : Nat) : Option Wallet :=
  if amount ≤ w.balance then some { w with stake := amount } else none

/-- `Wallet::validate_tx`. -/
def Wallet.validate_tx (w : Wallet) (tx : Signed Transaction) :
    Except Error (Signed Transaction) :=
  match tx.verify digestTx with
  | some e => .error e
  | none =>
    if tx.data.sender_address = w.address then
      if tx.data.nonce < w.nonce then
        .error (.NonceReused tx.data.nonce w.nonce)
      else
        match tx.data.kind with
        | .Coin amount _ =>
          if amount + tx.data.fees > w.available_funds then
            .error .InsufficientFunds
          else .ok tx
        | .Message _ _ =>
          if tx.data.fees > w.available_funds then
            .error .InsufficientFunds
          else .ok tx
        | .Stake amount =>
          if amount > w.balance then
            .error .InsufficientFunds
          else .ok tx
    else .ok tx

/-- `Wallet::apply_tx`.  The `u64` subtractions are guarded by
`validate_tx` in every reachable call, so truncated subtraction agrees. -/
def Wallet.apply_tx (w : Wallet) (stx : Signed Transaction) :
    Except Error Wallet :=
  match w.validate_tx stx with
  | .error e => .error e
  | .ok stx' =>
    let tx := stx'.data
    let w1 :=
      if tx.sender_address = w.address then
        let w' := { w with nonce := tx.nonce + 1, balance := w.balance - tx.fees }
        match tx.kind with
        | .Coin amount _ => { w' with balance := w'.balance - amount }
        | .Message _ _ => w'
        | .Stake amount => { w' with stake := amount }
      else w
    let w2 :=
      match tx.kind with
      | .Coin amount receiver =>
        if receiver = w1.address then { w1 with balance := w1.balance + amount }
        else w1
      | _ => w1
    .ok w2

/-! The node state machine (`node.rs`). -/

/-- `node.rs`: a block.  `DateTime<Utc>` timestamps are modelled as `Int`. -/
structure Block where
  timestamp : Int
  transactions : List (Signed Transaction)
  validator : Address
  parent_hash : Hash
deriving DecidableEq

/-- Abstract canonical-encoding digest of a block
(`Hash::digest` applied to a `Block`). -/
def digestBlock (b : Block) : Hash :=
  102 :: b.timestamp.natAbs :: (if b.timestamp < 0 then 1 else 0) ::
    b.validator :: b.parent_hash.length ::
    (b.parent_hash ++ (b.transactions.map digestSignedTx).flatten)

/-- `DateTime::<Utc>::MIN_UTC`, the minimum representable UTC instant,
modelled as a distinguished constant (only its identity matters). -/
def MIN_UTC : Int := -(2 ^ 62)

/-- The 32-byte constant parsed from the hex literal
`"0000…0001"` (64 hex digits) in `Node::new`: 31 zero bytes followed by
the byte `1`. -/
def genesisParentHash : Hash := List.replicate 31 0 ++ [1]

/-- `Hash::default()`: the all-zero 32-byte hash. -/
def zeroHash : Hash := List.replicate 32 0

/-- `node.rs`: the node state.  The `name` (logging only) and `outbox`
(network buffering only) fields are irrelevant to the verified claims and
are omitted. -/
structure Node where
  capacity : Nat
  pending_transactions : List ((Address × Nat) × Signed Transaction)
  blockchain : List (Signed Block)
  address : Address
  public_key : Nat
  private_key : Nat
  node_wallet : Wallet
  wallets : List (Address × Wallet)
deriving DecidableEq

/-- `Node::new`.  `none` models the panic of the
`assert!(amount <= self.balance)` inside `set_stake(1)` when the genesis
wallet's balance is too small (i.e. `genesis_funds = 0`). -/
def Node.new (public_key private_key genesis_validator : Nat)
    (genesis_funds : Nat) (capacity : Nat) : Option Node :=
  let node_address := Address.from_public_key public_key
  let node_wallet := Wallet.from_address node_address
  let wallets := mapInsert addrLt node_address node_wallet []
  let genesis_address := Address.from_public_key genesis_validator
  let genesis_tx : Transaction :=
    { sender_address := Address.invalid
      kind := .Coin genesis_funds genesis_address
      nonce := 0 }
  let genesis_block : Block :=
    { timestamp := MIN_UTC
      transactions := [Signed.new_invalid digestTx genesis_tx]
      validator := Address.invalid
      parent_hash := genesisParentHash }
  let gw := (getOrInsert addrLt genesis_address
    (Wallet.from_address genesis_address) wallets).1
  let wallets := (getOrInsert addrLt genesis_address
    (Wallet.from_address genesis_address) wallets).2
  let gw := gw.add_funds genesis_funds
  match gw.set_stake 1 with
  | none => none
  | some gw' =>
    let wallets := mapInsert addrLt genesis_address gw' wallets
    some
      { capacity := capacity
        pending_transactions := []
        blockchain := [Signed.new_invalid digestBlock genesis_block]
        address := node_address
        public_key := public_key
        private_key := private_key
        node_wallet := (mapLookup node_address wallets).getD node_wallet
        wallets := wallets }

/-- The sum `self.wallets.values().map(|w| w.staked_amount()).sum()`. -/
def totalStake (wallets : List (Address × Wallet)) : Nat :=
  (wallets.map (fun p => p.2.staked_amount)).sum

/-- The `find_map` scan in `Node::next_validator`: return the first wallet
(in ascending key order) whose stake strictly exceeds the remaining
`winner`, otherwise subtract its stake and continue. -/
def findValidator (winner : Nat) : List (Address × Wallet) → Option Address
  | [] => none
  | (_, w) :: rest =>
    if w.staked_amount > winner then some w.address
    else findValidator (winner - w.staked_amount) rest

/-- The range contract of `StdRng::gen_range(0..s)`. -/
def DrawValid (draw : Hash → Nat → Nat) : Prop :=
  ∀ h s, 0 < s → draw h s < s

/-- `Node::next_validator`.  `none` models the panics: the `unwrap` on an
empty chain, the `assert!(total_stake > 0)`, and the `unwrap` of the
`find_map` (unreachable for a valid draw). -/
def Node.next_validator (draw : Hash → Nat → Nat) (n : Node) :
    Option Address :=
  match n.blockchain.getLast? with
  | none => none
  | some tip =>
    let seed := tip.hash
    let total_stake := totalStake n.wallets
    if total_stake = 0 then none
    else findValidator (draw seed total_stake) n.wallets

/-- The tip hash `self.blockchain.last().unwrap().hash` (defaulting to `[]`
on the unreachable empty chain). -/
def tipHash (n : Node) : Hash :=
  match n.blockchain.getLast? with
  | none => []
  | some tip => tip.hash

/-- `Node::handle_transaction`: verify the envelope, then insert into the
mempool keyed by `(sender_address, nonce)`. -/
def Node.handle_transaction (n : Node) (tx : Signed Transaction) :
    Node × Option Error :=
  match tx.verify digestTx with
  | some e => (n, some e)
  | none =>
    ({ n with
        pending_transactions :=
          mapInsert keyLt (tx.data.sender_address, tx.data.nonce) tx
            n.pending_transactions },
      none)

/-- The transaction loop of `Node::handle_block`: apply each transaction to
the scratch map `ws`, mirroring `Coin`/`Message` receipts addressed to this
node into the denormalized `node_wallet` `nw`, and accumulate the fees.
On error the loop aborts with the error and the node wallet as already
mutated by the preceding iterations (the source mutates `self.node_wallet`
in place before the rest of the block is known to be valid). -/
def applyBlockTxs (selfAddr : Address) :
    List (Signed Transaction) → List (Address × Wallet) → Wallet → Nat →
    Except (Error × Wallet) (List (Address × Wallet) × Wallet × Nat)
  | [], ws, nw, fees => .ok (ws, nw, fees)
  | tx :: rest, ws, nw, fees =>
    let sender := tx.data.sender_address
    let swp := getOrInsert addrLt sender (Wallet.from_address sender) ws
    match swp.1.apply_tx tx with
    | .error e => .error (e, nw)
    | .ok sw' =>
      let ws1 := mapInsert addrLt sender sw' swp.2
      match tx.data.kind with
      | .Coin _ receiver | .Message _ receiver =>
        let rwp := getOrInsert addrLt receiver (Wallet.from_address receiver) ws1
        match rwp.1.apply_tx tx with
        | .error e => .error (e, nw)
        | .ok rw' =>
          let ws2 := mapInsert addrLt receiver rw' rwp.2
          if receiver = selfAddr then
            match nw.apply_tx tx with
            | .error e => .error (e, nw)
            | .ok nw' => applyBlockTxs selfAddr rest ws2 nw' (fees + tx.data.fees)
          else applyBlockTxs selfAddr rest ws2 nw (fees + tx.data.fees)
      | .Stake _ => applyBlockTxs selfAddr rest ws1 nw (fees + tx.data.fees)

/-- `Node::handle_block`.  The outer `Option` is `none` when
`next_validator` panics; otherwise the result is the node state (the error
path keeps everything except the possibly already-mutated `node_wallet`)
together with `none` for `Ok` or the returned error. -/
def Node.handle_block (draw : Hash → Nat → Nat) (n : Node)
    (b : Signed Block) : Option (Node × Option Error) :=
  match b.verify digestBlock with
  | some e => some (n, some e)
  | none =>
    match n.next_validator draw with
    | none => none
    | some expected =>
      if b.data.validator ≠ expected then
        some (n, some .InvalidBlockValidator)
      else
        match applyBlockTxs n.address b.data.transactions n.wallets
            n.node_wallet 0 with
        | .error (e, nw) => some ({ n with node_wallet := nw }, some e)
        | .ok (ws, nw, total_fees) =>
          let validator := b.data.validator
          let vwp := getOrInsert addrLt validator
            (Wallet.from_address validator) ws
          let ws' := mapInsert addrLt validator
            (vwp.1.add_funds total_fees) vwp.2
          let nw' := if validator = n.address then nw.add_funds total_fees
            else nw
          let pending := b.data.transactions.foldl
            (fun p tx => mapErase (tx.data.sender_address, tx.data.nonce) p)
            n.pending_transactions
          some
            ({ n with
                wallets := ws'
                node_wallet := nw'
                pending_transactions := pending
                blockchain := n.blockchain ++ [b] },
              none)

/-- The loop state of `Node::mint_block`: the scratch wallets, the
re-filled mempool, and the transactions selected for the block. -/
structure MintState where
  tmp : List (Address × Wallet)
  kept : List ((Address × Nat) × Signed Transaction)
  txs : List (Signed Transaction)
deriving DecidableEq

/-- One iteration of the `for (key, tx) in pending_transactions` loop of
`Node::mint_block`. -/
def mintStep (capacity : Nat) (s : MintState)
    (e : (Address × Nat) × Signed Transaction) : MintState :=
  let key := e.1
  let tx := e.2
  if s.txs.length < capacity then
    let sender := tx.data.sender_address
    let swp := getOrInsert addrLt sender (Wallet.from_address sender) s.tmp
    match swp.1.apply_tx tx with
    | .error (.NonceReused _ _) => { s with tmp := swp.2 }
    | .error _ =>
      { s with tmp := swp.2, kept := mapInsert keyLt key tx s.kept }
    | .ok sw' =>
      let tmp1 := mapInsert addrLt sender sw' swp.2
      match tx.data.receiver with
      | some receiver =>
        let rwp := getOrInsert addrLt receiver
          (Wallet.from_address receiver) tmp1
        if sender ≠ receiver then
          match rwp.1.apply_tx tx with
          | .ok rw' =>
            { s with
                tmp := mapInsert addrLt receiver rw' rwp.2
                txs := s.txs ++ [tx] }
          | .error _ =>
            { s with tmp := rwp.2, kept := mapInsert keyLt key tx s.kept }
        else { s with tmp := rwp.2, txs := s.txs ++ [tx] }
      | none => { s with tmp := tmp1, txs := s.txs ++ [tx] }
  else { s with kept := mapInsert keyLt key tx s.kept }

/-- `Node::mint_block`.  The wall-clock `Utc::now()` is an input `now`.
`none` models the `unwrap` panic on an empty chain. -/
def Node.mint_block (n : Node) (now : Int) : Option (Node × Signed Block) :=
  match n.blockchain.getLast? with
  | none => none
  | some tip =>
    let s := n.pending_transactions.foldl (mintStep n.capacity)
      { tmp := n.wallets, kept := [], txs := [] }
    let new_block : Block :=
      { timestamp := now
        transactions := s.txs
        validator := Address.from_public_key n.public_key
        parent_hash := tip.hash }
    some ({ n with pending_transactions := s.kept },
      sign digestBlock n.private_key new_block)

/-! Statement-level definitions used by the theorems below. -/

/-- The validator lottery as worded by the spec (§4.6.2, steps 3–4), for
refinement comparison with `Node.next_validator`: with `r` drawn from
`[0, S)`, iterate wallets in ascending address order and return the first
wallet whose stake strictly exceeds the remaining `r`, otherwise subtract
that stake from `r` and continue. -/
def lotteryScan (r : Nat) : List (Address × Wallet) → Option Address
  | [] => none
  | (_, w) :: rest =>
    if r < w.stake then some w.address else lotteryScan (r - w.stake) rest

/-- The reference lottery as worded by the spec (§4.6.2): seed the RNG with
the tip hash, let `S` be the total stake, draw `r ∈ [0, S)`, and scan. -/
def electSpec (draw : Hash → Nat → Nat) (tip : Hash)
    (wallets : List (Address × Wallet)) : Option Address :=
  let S := totalStake wallets
  if S = 0 then none else lotteryScan (draw tip S) wallets

/-- All transactions committed on a chain, in chain-then-block order. -/
def chainTxs (chain : List (Signed Block)) : List (Signed Transaction) :=
  (chain.map (fun b => b.data.transactions)).flatten

/-- The number of committed transactions whose sender is `a`. -/
def committedCount (n : Node) (a : Address) : Nat :=
  ((chainTxs n.blockchain).filter
    (fun t => t.data.sender_address = a)).length

/-- Folding a transaction list over the nonce bookkeeping of sender `a`:
each transaction of `a` replaces the accumulator by its nonce plus one. -/
def nonceFold (a : Address) (v : Nat) (txs : List (Signed Transaction)) : Nat :=
  txs.foldl
    (fun acc t => if t.data.sender_address = a then t.data.nonce + 1 else acc) v

/-- One more than the nonce of the last committed transaction of sender
`a`, or `0` if there is none. -/
def lastNonceSucc (chain : List (Signed Block)) (a : Address) : Nat :=
  nonceFold a 0 (chainTxs chain)

/-- The nonce recorded for address `a` in a wallet map (`0` when the
address has no wallet entry). -/
def nonceOf (ws : List (Address × Wallet)) (a : Address) : Nat :=
  match mapLookup a ws with
  | some w => w.nonce
  | none => 0

/-- Every entry of a wallet map stores a wallet whose `address` field
equals its key (true of every map the node ever commits). -/
def AddrConsistent (ws : List (Address × Wallet)) : Prop :=
  ∀ e ∈ ws, (e : Address × Wallet).2.address = e.1

/-- A `Coin` or `Message` transaction whose recipient equals its sender. -/
def selfAddressed (t : Transaction) : Bool :=
  t.receiver = some t.sender_address

/-- Whether an `apply_tx` outcome is a `NonceReused` error. -/
def isNonceReusedErr (r : Except Error Wallet) : Bool :=
  match r with
  | .error (.NonceReused _ _) => true
  | _ => false

/-- Whether an `apply_tx` outcome is an error other than `NonceReused`. -/
def isOtherErr (r : Except Error Wallet) : Bool :=
  match r with
  | .error (.NonceReused _ _) => false
  | .error _ => true
  | .ok _ => false

/-- Every mempool entry is keyed by its transaction's
`(sender_address, nonce)` (guaranteed by `handle_transaction`, the only
producer of mempool entries). -/
def PendingWF (p : List ((Address × Nat) × Signed Transaction)) : Prop :=
  ∀ e ∈ p, (e : (Address × Nat) × Signed Transaction).1 =
    (e.2.data.sender_address, e.2.data.nonce)

instance decPendingWF (p : List ((Address × Nat) × Signed Transaction)) :
    Decidable (PendingWF p) :=
  List.decidableBAll _ p

instance decAddrConsistent (ws : List (Address × Wallet)) :
    Decidable (AddrConsistent ws) :=
  List.decidableBAll _ ws

/-- The node states reachable from construction by any interleaving of
`handle_transaction`, `handle_block` and `mint_block` (with the RNG
modelled by `draw`). -/
inductive Reachable (draw : Hash → Nat → Nat) : Node → Prop where
  | init (pk sk gpk funds cap : Nat) (n : Node) :
      Node.new pk sk gpk funds cap = some n → Reachable draw n
  | tx (n : Node) (stx : Signed Transaction) (n' : Node) (r : Option Error) :
      Reachable draw n → n.handle_transaction stx = (n', r) →
      Reachable draw n'
  | block (n : Node) (b : Signed Block) (n' : Node) (r : Option Error) :
      Reachable draw n → n.handle_block draw b = some (n', r) →
      Reachable draw n'
  | mint (n : Node) (now : Int) (n' : Node) (b : Signed Block) :
      Reachable draw n → n.mint_block now = some (n', b) →
      Reachable draw n'

/-! Concrete instances used by counterexamples and witnesses.  The node is
built with node private key `9` (public key `10`, address `11`) and
genesis validator public key `20` (private key `19`, address `21`). -/

/-- A valid draw (`gen_range(0..s)` returns `0`): every run below elects
among a single staker (total stake `1`), where any valid draw returns `0`,
so these runs are independent of the concrete RNG. -/
def draw0 : Hash → Nat → Nat := fun _ _ => 0

/-- A placeholder node (only used as an `Option.getD` default that is
never reached). -/
def arbNode : Node :=
  { capacity := 0, pending_transactions := [], blockchain := []
    address := 0, public_key := 0, private_key := 0
    node_wallet := Wallet.from_address 0, wallets := [] }

/-- The freshly constructed concrete node: `Node::new` with node keypair
`(9, 10)`, genesis validator key `20`, genesis funds `10000`, capacity `5`.
Its wallet map is `[(11, balance 0, stake 0), (21, balance 10000, stake 1)]`,
so the total stake is `1` and the next validator is address `21` for every
valid draw. -/
def cNode : Node := (Node.new 10 9 20 10000 5).getD arbNode

/-- A block with a parent hash (`[99]`) that does not match the tip's
content hash, carrying no transactions, with the expected validator `21`,
signed by the genesis validator's key. -/
def c1Block : Signed Block := sign digestBlock 19 ⟨5, [], 21, [99]⟩

/-- A coin transfer of `100` from the genesis validator (address `21`) to
the node (address `11`), nonce `0`, signed by key `19`. -/
def cTx21 : Signed Transaction := sign digestTx 19 ⟨21, .Coin 100 11, 0⟩

/-- A block containing `cTx21` twice: the first copy applies (and pays the
node, mutating the denormalized node wallet), the second fails with
`NonceReused`, so the block is rejected after the mutation. -/
def c3Block : Signed Block := sign digestBlock 19 ⟨6, [cTx21, cTx21], 21, [0]⟩

/-- The node state left behind by the rejected `c3Block`. -/
def c3After : Node :=
  ((cNode.handle_block draw0 c3Block).getD (arbNode, none)).1

/-- A transaction from the fresh sender `30` with the skipped nonce `5`
(amount and fees `0`, so it applies against the empty wallet). -/
def c5Tx : Signed Transaction := sign digestTx 7 ⟨30, .Coin 0 31, 5⟩

/-- A valid block committing `c5Tx`. -/
def c5Block : Signed Block := sign digestBlock 19 ⟨7, [c5Tx], 21, [0]⟩

/-- The node state after accepting `c5Block`. -/
def c5After : Node :=
  ((cNode.handle_block draw0 c5Block).getD (arbNode, none)).1

/-- A `Stake(0)` transaction by the sole staker (the genesis validator). -/
def c9Tx : Signed Transaction := sign digestTx 19 ⟨21, .Stake 0, 0⟩

/-- A valid block committing `c9Tx`, driving the total stake to `0`. -/
def c9Block : Signed Block := sign digestBlock 19 ⟨3, [c9Tx], 21, [0]⟩

/-- The node state after accepting `c9Block`: no staker is left. -/
def c9After : Node :=
  ((cNode.handle_block draw0 c9Block).getD (arbNode, none)).1

/-- A self-addressed coin transfer: sender and recipient are both the
genesis validator (address `21`). -/
def c10Tx : Signed Transaction := sign digestTx 19 ⟨21, .Coin 5 21, 0⟩

/-- A valid-looking block containing the self-addressed `c10Tx`. -/
def c10Block : Signed Block := sign digestBlock 19 ⟨8, [c10Tx], 21, [0]⟩

/-- The (unchanged-but-for-nothing) pair returned when `c10Block` is
rejected. -/
def c10After : Node × Option Error :=
  (cNode.handle_block draw0 c10Block).getD (arbNode, none)

/-- A node with genesis funds `100000` at the genesis validator, used for
the mint-capacity scenario. -/
def mNode : Node := (Node.new 10 9 20 100000 5).getD arbNode

/-- The `i`-th of seven coin transfers (`Coin 100` to the node) from the
genesis validator with nonce `i`. -/
def mTx (i : Nat) : Signed Transaction := sign digestTx 19 ⟨21, .Coin 100 11, i⟩

/-- `mNode` after receiving the seven transactions with nonces `0..6`. -/
def node7 : Node :=
  (List.range 7).foldl (fun n i => (n.handle_transaction (mTx i)).1) mNode

/-- A block committing `cTx21` once, raising wallet `21`'s nonce to `1`. -/
def c8Block : Signed Block := sign digestBlock 19 ⟨6, [cTx21], 21, [0]⟩

/-- `cNode` after committing `c8Block` (wallet `21`: balance `9900`,
nonce `1`). -/
def c8Node : Node :=
  ((cNode.handle_block draw0 c8Block).getD (arbNode, none)).1

/-- A stale transaction: nonce `0` is below wallet `21`'s nonce `1`, so
minting fails with `NonceReused` and drops it. -/
def c8TxStale : Signed Transaction := sign digestTx 19 ⟨21, .Coin 1 11, 0⟩

/-- A transient transaction: the amount exceeds wallet `21`'s balance, so
minting fails with `InsufficientFunds` and re-inserts it. -/
def c8TxPoor : Signed Transaction :=
  sign digestTx 19 ⟨21, .Coin 999999999 11, 1⟩

/-- `c8Node` with `c8TxStale` and `c8TxPoor` pending. -/
def c8Pending : Node :=
  ((c8Node.handle_transaction c8TxStale).1.handle_transaction c8TxPoor).1

/-- The kind-specific funds bound of `validate_tx` as worded by the claim:
`Coin(amount, _)` fails iff `amount + fees > balance − stake`,
`Message` fails iff `fees > balance − stake`, `Stake(amount)` fails iff
`amount > balance`. -/
def fundsShort (w : Wallet) (t : Transaction) : Bool :=
  match t.kind with
  | .Coin amount _ => decide (amount + t.fees > w.available_funds)
  | .Message _ _ => decide (t.fees > w.available_funds)
  | .Stake amount => decide (amount > w.balance)

/-- A concrete wallet at address `21` with balance `100`: too poor for
`cTx21` (cost `103`). -/
def c6Wallet : Wallet := { address := 21, balance := 100, stake := 0, nonce := 0 }

/-- The mint-loop state after processing the prefix `pre` of the mempool
(drained into the loop with empty re-fill and empty block). -/
def mintPointState (n : Node) (pre : List ((Address × Nat) × Signed Transaction)) :
    MintState :=
  pre.foldl (mintStep n.capacity) { tmp := n.wallets, kept := [], txs := [] }

/-- The outcome of applying `tx` to the scratch sender wallet at the point
of the mint loop where the prefix `pre` has been processed. -/
def mintSenderApply (n : Node) (pre : List ((Address × Nat) × Signed Transaction))
    (tx : Signed Transaction) : Except Error Wallet :=
  ((getOrInsert addrLt tx.data.sender_address
    (Wallet.from_address tx.data.sender_address) (mintPointState n pre).tmp).1).apply_tx tx

/-- Whether an `apply_tx` outcome is a success. -/
def exceptIsOk (r : Except Error Wallet) : Bool :=
  match r with
  | .ok _ => true
  | .error _ => false

/-- A placeholder signed block (only used as an `Option.getD` default that
is never reached). -/
def arbSB : Signed Block := Signed.new_invalid digestBlock ⟨0, [], 0, []⟩

/-- The node left behind by minting on `node7`. -/
def c7After : Node := ((node7.mint_block 5).getD (arbNode, arbSB)).1

/-- The block minted on `node7` (five transactions, nonces `0..4`). -/
def c7Block : Signed Block := ((node7.mint_block 5).getD (arbNode, arbSB)).2

/-- The node left behind by minting on `c8Pending`. -/
def c8After : Node := ((c8Pending.mint_block 9).getD (arbNode, arbSB)).1

/-- The (empty) block minted on `c8Pending`. -/
def c8Minted : Signed Block := ((c8Pending.mint_block 9).getD (arbNode, arbSB)).2

/-- The node invariant for claim C5: wallet addresses match their map keys
and, for every non-sentinel sender, the recorded wallet nonce is one more
than the nonce of the sender's last committed transaction (`0` if none). -/
def NodeInv (n : Node) : Prop :=
  AddrConsistent n.wallets ∧
  ∀ a, a ≠ Address.invalid → nonceOf n.wallets a = lastNonceSucc n.blockchain a

instance {ε α : Type} [DecidableEq ε] [DecidableEq α] :
    DecidableEq (Except ε α)
  | .ok x, .ok y =>
    if h : x = y then .isTrue (by rw [h])
    else .isFalse (by simp [h])
  | .ok _, .error _ => .isFalse (fun h => Except.noConfusion h)
  | .error _, .ok _ => .isFalse (fun h => Except.noConfusion h)
  | .error x, .error y =>
    if h : x = y then .isTrue (by rw [h])
    else .isFalse (by simp [h])

/-! Shared helper lemmas. -/

/-- `handle_transaction` touches only the mempool: the wallet map and the
chain are unchanged whether it succeeds or fails. -/
theorem handle_transaction_frame (n : Node) (stx : Signed Transaction) :
    (n.handle_transaction stx).1.wallets = n.wallets ∧
    (n.handle_transaction stx).1.blockchain = n.blockchain := by
  unfold Node.handle_transaction
  cases stx.verify digestTx <;> simp

/-- `mint_block` touches only the mempool: the committed wallet map and
the chain are unchanged (the scratch wallets are discarded). -/
theorem mint_frame (n : Node) (now : Int) (n' : Node) (b : Signed Block)
    (h : n.mint_block now = some (n', b)) :
    n'.wallets = n.wallets ∧ n'.blockchain = n.blockchain := by
  unfold Node.mint_block at h
  cases hl : n.blockchain.getLast? with
  | none => rw [hl] at h; exact Option.noConfusion h
  | some tip =>
    rw [hl] at h
    injection h with h
    rw [Prod.ext_iff] at h
    obtain ⟨h1, -⟩ := h
    cases h1
    exact ⟨rfl, rfl⟩

/-- On any error return, `handle_block` leaves the wallet map, the mempool
and the chain exactly as they were (only the denormalized node wallet may
have been mutated). -/
theorem hb_error_frame (draw : Hash → Nat → Nat) (n n' : Node)
    (b : Signed Block) (e : Error)
    (h : n.handle_block draw b = some (n', some e)) :
    n'.wallets = n.wallets ∧
    n'.pending_transactions = n.pending_transactions ∧
    n'.blockchain = n.blockchain := by
  unfold Node.handle_block at h
  split at h
  · injection h with h
    rw [Prod.ext_iff] at h
    obtain ⟨h1, -⟩ := h
    cases h1
    exact ⟨rfl, rfl, rfl⟩
  · split at h
    · exact Option.noConfusion h
    · split at h
      · injection h with h
        rw [Prod.ext_iff] at h
        obtain ⟨h1, -⟩ := h
        cases h1
        exact ⟨rfl, rfl, rfl⟩
      · split at h
        · injection h with h
          rw [Prod.ext_iff] at h
          obtain ⟨h1, -⟩ := h
          cases h1
          exact ⟨rfl, rfl, rfl⟩
        · injection h with h
          rw [Prod.ext_iff] at h
          obtain ⟨-, h2⟩ := h
          exact Option.noConfusion h2

/-! Claim C1. -/

/-- C1 (counterexample): `handle_block` accepts (returns `Ok` and appends
to the chain) the block `c1Block` whose `parent_hash` (`[99]`) is not the
content hash of the chain tip, refuting both "the block's parent_hash
equals the content hash of the block that was the chain tip" and "a block
whose parent_hash does not match the current tip is rejected". -/
theorem C1_counterexample :
    (cNode.handle_block draw0 c1Block).map
      (fun p => (p.2, p.1.blockchain.length)) = some (none, 2) ∧
    c1Block.data.parent_hash ≠ tipHash cNode := by
  decide

/-- C1 (amended): `Node::handle_block` never inspects `parent_hash`.  A
block is accepted exactly when its envelope verifies, its validator is the
one elected under the current tip, and all its transactions apply; in
particular a block whose `parent_hash` differs from the tip's content hash
is still accepted and appended, so the parent-linkage invariant fails for
received blocks. -/
theorem C1_no_parent_hash_check (draw : Hash → Nat → Nat) (n : Node)
    (b : Signed Block) (ws : List (Address × Wallet)) (nw : Wallet)
    (fees : Nat) (hv : b.verify digestBlock = none)
    (hval : n.next_validator draw = some b.data.validator)
    (happ : applyBlockTxs n.address b.data.transactions n.wallets
      n.node_wallet 0 = .ok (ws, nw, fees))
    (_hmis : b.data.parent_hash ≠ tipHash n) :
    ∃ n', n.handle_block draw b = some (n', none) ∧
      n'.blockchain = n.blockchain ++ [b] := by
  unfold Node.handle_block
  rw [hv, hval, happ]
  simp

/-- Witness for C1's amended theorem at the concrete mismatching block. -/
theorem C1_no_parent_hash_check_witness :
    (cNode.handle_block draw0 c1Block).map
      (fun p => (p.2, p.1.blockchain)) =
      some (none, cNode.blockchain ++ [c1Block]) := by
  obtain ⟨n', h1, h2⟩ := C1_no_parent_hash_check draw0 cNode c1Block
    cNode.wallets cNode.node_wallet 0 (by decide) (by decide) (by decide)
    (by decide)
  rw [h1]
  simp [h2]

/-! Claim C3. -/

/-- C3 (counterexample): `c3Block` pays the node with its first
transaction and fails on its second; `handle_block` rejects it with
`NonceReused` but the denormalized node wallet has already been credited
(balance `100` instead of the original `0`), so the observable state is
not completely unchanged. -/
theorem C3_counterexample :
    cNode.handle_block draw0 c3Block =
      some (c3After, some (.NonceReused 0 1)) ∧
    c3After.node_wallet.balance = 100 ∧
    cNode.node_wallet.balance = 0 := by
  decide

/-- C3 (amended): whenever `handle_block` returns an error, the wallet
map, the mempool and the blockchain are exactly as before the call, but
the denormalized node wallet may already have been mutated (it is updated
in place while the block's transactions are still being validated). -/
theorem C3_error_frame (draw : Hash → Nat → Nat) (n n' : Node)
    (b : Signed Block) (e : Error)
    (h : n.handle_block draw b = some (n', some e)) :
    n'.wallets = n.wallets ∧
    n'.pending_transactions = n.pending_transactions ∧
    n'.blockchain = n.blockchain :=
  hb_error_frame draw n n' b e h

/-- Witness for C3's amended theorem at the concrete rejected block. -/
theorem C3_error_frame_witness :
    c3After.wallets = cNode.wallets ∧
    c3After.pending_transactions = cNode.pending_transactions ∧
    c3After.blockchain = cNode.blockchain :=
  C3_error_frame draw0 cNode c3After c3Block (.NonceReused 0 1) (by decide)

/-! Claim C4. -/

/-- C4 (counterexample): the genesis block's `parent_hash` is the 32-byte
constant `0x00…01` (31 zero bytes then `1`), not the zero hash. -/
theorem C4_counterexample :
    (cNode.blockchain.head?.map (fun b => b.data.parent_hash)) =
      some genesisParentHash ∧
    genesisParentHash ≠ zeroHash := by
  decide

/-- C4 (amended): for every choice of parameters with `genesis_funds ≥ 1`
(for `genesis_funds = 0` the `set_stake(1)` assertion panics),
`Node::new` produces a genesis chain of exactly one block whose
`parent_hash` is the constant `0x00…01`, whose timestamp is the minimum
UTC instant, whose validator is the invalid address, and whose single
transaction is `Coin(genesis_funds, genesis_validator_address)` with the
invalid sender and nonce `0`, in an invalid-signature envelope.  The
chain value depends only on `genesis_validator` and `genesis_funds`, so
any two nodes built with the same two values have identical genesis
blocks. -/
theorem C4_genesis_block (pk sk gpk funds cap : Nat) (hf : 1 ≤ funds) :
    (Node.new pk sk gpk funds cap).map (fun n => n.blockchain) =
      some [Signed.new_invalid digestBlock
        { timestamp := MIN_UTC
          transactions := [Signed.new_invalid digestTx
            { sender_address := Address.invalid
              kind := .Coin funds (Address.from_public_key gpk)
              nonce := 0 }]
          validator := Address.invalid
          parent_hash := genesisParentHash }] := by
  have hbal : ((getOrInsert addrLt (Address.from_public_key gpk)
      (Wallet.from_address (Address.from_public_key gpk))
      (mapInsert addrLt (Address.from_public_key pk)
        (Wallet.from_address (Address.from_public_key pk)) [])).1).balance
      = 0 := by
    by_cases h : Address.from_public_key gpk = Address.from_public_key pk <;>
      simp [getOrInsert, mapInsert, mapLookup, Wallet.from_address, h]
  simp only [Node.new]
  split
  next heq =>
    exfalso
    simp only [Wallet.set_stake, Wallet.add_funds, hbal] at heq
    split at heq
    · exact Option.noConfusion heq
    · omega

  next gw' heq =>
    simp

/-! Claim C5 (counterexample part). -/

/-- C5 (counterexample): committing `c5Block` (one transaction from the
fresh sender `30` with the skipped nonce `5`) is accepted and leaves
wallet `30` with nonce `6` while only `1` transaction of sender `30` is
committed, refuting `wallet[a].nonce = count of committed transactions`. -/
theorem C5_counterexample :
    cNode.handle_block draw0 c5Block = some (c5After, none) ∧
    nonceOf c5After.wallets 30 = 6 ∧
    committedCount c5After 30 = 1 := by
  decide

/-! Claim C9 (counterexample part). -/

/-- C9 (counterexample): from a freshly constructed node, committing a
single `Stake(0)` transaction of the sole staker yields a reachable state
whose total stake is `0`, where the `assert!(total_stake > 0)` in
`next_validator` fails (modelled by `next_validator = none`). -/
theorem C9_counterexample :
    Reachable draw0 c9After ∧ totalStake c9After.wallets = 0 ∧
    c9After.next_validator draw0 = none :=
  ⟨Reachable.block cNode c9Block c9After none
      (Reachable.init 10 9 20 10000 5 cNode (by decide)) (by decide),
    by decide, by decide⟩

/-! Claim C2. -/

/-- The source's `find_map` scan coincides with the spec-worded lottery
scan (`staked_amount() > winner` is `winner < stake`). -/
theorem findValidator_eq_lotteryScan (r : Nat) (ws : List (Address × Wallet)) :
    findValidator r ws = lotteryScan r ws := by
  induction ws generalizing r with
  | nil => rfl
  | cons e rest ih =>
    obtain ⟨k, w⟩ := e
    unfold findValidator lotteryScan
    simp only [Wallet.staked_amount, gt_iff_lt]
    split
    · rfl
    · exact ih _

/-- `totalStake` of a cons cell. -/
theorem totalStake_cons (k : Address) (w : Wallet)
    (rest : List (Address × Wallet)) :
    totalStake ((k, w) :: rest) = w.stake + totalStake rest := by
  simp [totalStake, Wallet.staked_amount]

/-- The scan always succeeds when the drawn value is below total stake. -/
theorem findValidator_total (r : Nat) (ws : List (Address × Wallet))
    (h : r < totalStake ws) : ∃ a, findValidator r ws = some a := by
  induction ws generalizing r with
  | nil => simp [totalStake] at h
  | cons e rest ih =>
    obtain ⟨k, w⟩ := e
    unfold findValidator
    by_cases hc : w.staked_amount > r
    · exact ⟨w.address, by simp [hc]⟩
    · rw [totalStake_cons] at h
      have hlt : r - w.staked_amount < totalStake rest := by
        simp only [Wallet.staked_amount] at *
        omega
      obtain ⟨a, ha⟩ := ih _ hlt
      exact ⟨a, by simp [hc, ha]⟩

/-- `next_validator` as a function of the tip hash and the wallet map. -/
theorem next_validator_eq_elect (draw : Hash → Nat → Nat) (n : Node)
    (hne : n.blockchain ≠ []) :
    n.next_validator draw = electSpec draw (tipHash n) n.wallets := by
  obtain ⟨tip, htip⟩ : ∃ tip, n.blockchain.getLast? = some tip := by
    cases hl : n.blockchain.getLast? with
    | none => exact absurd (List.getLast?_eq_none_iff.mp hl) hne
    | some tip => exact ⟨tip, rfl⟩
  have ht : tipHash n = tip.hash := by unfold tipHash; rw [htip]
  rw [ht]
  unfold Node.next_validator electSpec
  rw [htip]
  dsimp only
  split
  · rfl
  · exact findValidator_eq_lotteryScan _ _

/-- C2: for every node with a nonempty chain and positive total stake,
`next_validator` returns exactly the spec's reference lottery (seed the
deterministic RNG with the tip's content hash, draw `r ∈ [0, S)`, scan
wallets in ascending address order returning the first whose stake
strictly exceeds the remaining `r`, else subtract); it always elects
somebody, and any node with the same tip hash and the same wallet map
elects the same validator.  The RNG itself is abstracted by the
deterministic `draw` function (see `DrawValid`). -/
theorem C2_next_validator_lottery (draw : Hash → Nat → Nat) (n m : Node)
    (hne : n.blockchain ≠ []) (hS : 0 < totalStake n.wallets)
    (hdraw : DrawValid draw) (hmne : m.blockchain ≠ [])
    (hmtip : tipHash m = tipHash n) (hmw : m.wallets = n.wallets) :
    n.next_validator draw = electSpec draw (tipHash n) n.wallets ∧
    (n.next_validator draw).isSome = true ∧
    m.next_validator draw = n.next_validator draw := by
  have h1 := next_validator_eq_elect draw n hne
  have h2 := next_validator_eq_elect draw m hmne
  refine ⟨h1, ?_, ?_⟩
  · rw [h1]
    unfold electSpec
    rw [if_neg (by omega)]
    rw [← findValidator_eq_lotteryScan]
    obtain ⟨a, ha⟩ := findValidator_total _ _ (hdraw (tipHash n) _ hS)
    rw [ha]
    rfl
  · rw [h1, h2, hmtip, hmw]

/-- `draw0` satisfies the `gen_range` contract. -/
theorem drawValid_draw0 : DrawValid draw0 := fun _ _ hs => hs

/-- Witness for C2 at the concrete freshly constructed node. -/
theorem C2_witness :
    cNode.next_validator draw0 =
      electSpec draw0 (tipHash cNode) cNode.wallets ∧
    (cNode.next_validator draw0).isSome = true ∧
    cNode.next_validator draw0 = cNode.next_validator draw0 :=
  C2_next_validator_lottery draw0 cNode cNode (by decide) (by decide)
    drawValid_draw0 (by decide) rfl rfl

/-! Claim C6. -/

/-- C6: given a verifying envelope, `validate_tx` checks nothing beyond
the envelope when the sender is not this wallet; when it is, it returns
`NonceReused` exactly when `tx.nonce < wallet.nonce`, otherwise
`InsufficientFunds` exactly when the kind-specific bound fails
(`Coin(amount,_)`: `amount + fees > balance − stake`; `Message`:
`fees > balance − stake`; `Stake(amount)`: `amount > balance`), and `Ok`
in all remaining cases. -/
theorem C6_validate_tx_cases (w : Wallet) (tx : Signed Transaction)
    (hv : tx.verify digestTx = none) :
    (tx.data.sender_address ≠ w.address → w.validate_tx tx = .ok tx) ∧
    (tx.data.sender_address = w.address →
      (tx.data.nonce < w.nonce →
        w.validate_tx tx = .error (.NonceReused tx.data.nonce w.nonce)) ∧
      (¬ tx.data.nonce < w.nonce →
        (fundsShort w tx.data = true →
          w.validate_tx tx = .error .InsufficientFunds) ∧
        (fundsShort w tx.data = false → w.validate_tx tx = .ok tx))) := by
  unfold Wallet.validate_tx
  rw [hv]
  constructor
  · intro h
    rw [if_neg h]
  · intro h
    rw [if_pos h]
    constructor
    · intro hn
      rw [if_pos hn]
    · intro hn
      rw [if_neg hn]
      cases hk : tx.data.kind <;> simp only [hk] <;> constructor <;>
        intro hf <;>
        simp only [fundsShort, hk, decide_eq_true_eq,
          decide_eq_false_iff_not] at hf <;>
        first
        | rw [if_pos hf]
        | rw [if_neg hf]

/-- Witness for C6: the wallet at address `21` with balance `100` rejects
the coin transfer `cTx21` (cost `103`) with `InsufficientFunds`. -/
theorem C6_witness : c6Wallet.validate_tx cTx21 = .error .InsufficientFunds :=
  ((C6_validate_tx_cases c6Wallet cTx21 (by decide)).2 (by decide)).2
    (by decide) |>.1 (by decide)

/-! Claim C9 (amended part). -/

/-- The inserted wallet's stake is part of the total. -/
theorem stake_le_totalStake_insert (lt : Address → Address → Bool)
    (k : Address) (w : Wallet) (m : List (Address × Wallet)) :
    w.stake ≤ totalStake (mapInsert lt k w m) := by
  induction m with
  | nil => simp [mapInsert, totalStake, Wallet.staked_amount]
  | cons e rest ih =>
    obtain ⟨k', v'⟩ := e
    unfold mapInsert
    split
    · rw [totalStake_cons]; omega
    · split
      · rw [totalStake_cons]; omega
      · rw [totalStake_cons]; omega

/-- C9 (amended): the genesis seeding makes the total stake strictly
positive at construction (the genesis validator's stake is set to `1`);
however, this is not an invariant of reachable states — a committed
`Stake` transaction can drop the sole staker's stake to `0`
(see the counterexample), after which the assertion in `next_validator`
fails. -/
theorem C9_initial_stake_positive (pk sk gpk funds cap : Nat) (n : Node)
    (h : Node.new pk sk gpk funds cap = some n) :
    0 < totalStake n.wallets := by
  simp only [Node.new] at h
  split at h
  · exact Option.noConfusion h
  next gw' heq =>
    injection h with h
    subst h
    have hstake : gw'.stake = 1 := by
      unfold Wallet.set_stake at heq
      split at heq
      · injection heq with heq
        rw [← heq]
      · exact Option.noConfusion heq
    have := stake_le_totalStake_insert addrLt
      (Address.from_public_key gpk) gw'
      ((getOrInsert addrLt (Address.from_public_key gpk)
        (Wallet.from_address (Address.from_public_key gpk))
        (mapInsert addrLt (Address.from_public_key pk)
          (Wallet.from_address (Address.from_public_key pk)) [])).2)
    simp only
    omega

/-- Witness for C9's amended theorem at the concrete construction. -/
theorem C9_witness : 0 < totalStake cNode.wallets :=
  C9_initial_stake_positive 10 9 20 10000 5 cNode (by decide)

/-- Witness for C4's amended theorem at the concrete construction. -/
theorem C4_genesis_block_witness :
    (Node.new 10 9 20 10000 5).map (fun n => n.blockchain) =
      some [Signed.new_invalid digestBlock
        { timestamp := MIN_UTC
          transactions := [Signed.new_invalid digestTx
            { sender_address := Address.invalid
              kind := .Coin 10000 (Address.from_public_key 20)
              nonce := 0 }]
          validator := Address.invalid
          parent_hash := genesisParentHash }] :=
  C4_genesis_block 10 9 20 10000 5 (by decide)

/-! Claim C7. -/

/-- One mint-loop iteration either leaves the block transactions alone or
appends exactly the processed transaction. -/
theorem mintStep_txs (cap : Nat) (s : MintState)
    (e : (Address × Nat) × Signed Transaction) :
    (mintStep cap s e).txs = s.txs ∨
    (mintStep cap s e).txs = s.txs ++ [e.2] := by
  unfold mintStep
  dsimp only
  repeat' split
  all_goals first
  | exact Or.inl rfl
  | exact Or.inr rfl

/-- One mint-loop iteration keeps the block within capacity. -/
theorem mintStep_len (cap : Nat) (s : MintState)
    (e : (Address × Nat) × Signed Transaction)
    (h : s.txs.length ≤ cap) : (mintStep cap s e).txs.length ≤ cap := by
  unfold mintStep
  dsimp only
  repeat' split
  all_goals first
  | (simp_all [List.length_append]; omega)
  | simp_all [List.length_append]

/-- The whole mint loop keeps the block within capacity. -/
theorem mint_loop_len (cap : Nat)
    (L : List ((Address × Nat) × Signed Transaction)) (s : MintState)
    (h : s.txs.length ≤ cap) :
    ((L.foldl (mintStep cap) s).txs.length ≤ cap) := by
  induction L generalizing s with
  | nil => exact h
  | cons e rest ih => exact ih _ (mintStep_len cap s e h)

/-- The mint loop appends a subsequence of the processed transactions, in
processing order. -/
theorem mint_loop_sublist (cap : Nat)
    (L : List ((Address × Nat) × Signed Transaction)) (s : MintState) :
    ∃ t, (L.foldl (mintStep cap) s).txs = s.txs ++ t ∧
      t.Sublist (L.map (fun e => e.2)) := by
  induction L generalizing s with
  | nil => exact ⟨[], by simp, by simp⟩
  | cons e rest ih =>
    rw [List.foldl_cons]
    obtain ⟨t, ht, hs⟩ := ih (mintStep cap s e)
    rcases mintStep_txs cap s e with h | h
    · rw [h] at ht
      exact ⟨t, ht, hs.cons e.2⟩
    · rw [h] at ht
      refine ⟨e.2 :: t, ?_, hs.cons₂ e.2⟩
      rw [ht, List.append_assoc]
      rfl

/-- The outputs of `mint_block` in terms of the mint loop: the new mempool
is the loop's re-fill and the minted block carries the loop's selected
transactions. -/
theorem mint_block_eq (n : Node) (now : Int) (n' : Node) (sb : Signed Block)
    (h : n.mint_block now = some (n', sb)) :
    n'.pending_transactions = (mintPointState n n.pending_transactions).kept ∧
    sb.data.transactions = (mintPointState n n.pending_transactions).txs := by
  unfold Node.mint_block at h
  cases hl : n.blockchain.getLast? <;> rw [hl] at h
  · exact Option.noConfusion h
  · injection h with h
    rw [Prod.ext_iff] at h
    obtain ⟨h1, h2⟩ := h
    cases h1
    cases h2
    exact ⟨rfl, rfl⟩

/-- C7: every minted block contains at most `capacity` transactions, taken
from the mempool as a subsequence of its ascending `(sender, nonce)`
order; and in the concrete scenario (capacity `5`, seven valid
transactions of one sender with nonces `0..6`) the minted block carries
exactly nonces `0..4` in order while nonces `5` and `6` survive in the
mempool. -/
theorem C7_mint_capacity_and_order :
    (∀ (n : Node) (now : Int) (n' : Node) (sb : Signed Block),
      n.mint_block now = some (n', sb) →
      sb.data.transactions.length ≤ n.capacity ∧
      sb.data.transactions.Sublist
        (n.pending_transactions.map (fun e => e.2))) ∧
    (node7.mint_block 5).map (fun p =>
        (p.2.data.transactions.map (fun t => t.data.nonce),
         p.1.pending_transactions.map (fun e => e.1.2))) =
      some ([0, 1, 2, 3, 4], [5, 6]) := by
  constructor
  · intro n now n' sb h
    obtain ⟨-, htxs⟩ := mint_block_eq n now n' sb h
    rw [htxs]
    constructor
    · exact mint_loop_len _ _ _ (Nat.zero_le _)
    · obtain ⟨t, ht, hs⟩ := mint_loop_sublist n.capacity
        n.pending_transactions { tmp := n.wallets, kept := [], txs := [] }
      unfold mintPointState
      rw [ht]
      exact hs
  · decide

/-- Witness for C7's universally quantified part at the concrete
seven-transaction node. -/
theorem C7_witness :
    c7Block.data.transactions.length ≤ node7.capacity ∧
    c7Block.data.transactions.Sublist
      (node7.pending_transactions.map (fun e => e.2)) :=
  C7_mint_capacity_and_order.1 node7 5 c7After c7Block (by decide)

/-! Claim C8. -/

/-- Looking up the freshly inserted key returns the inserted value. -/
theorem mapLookup_insert_self {κ β : Type} [DecidableEq κ]
    (lt : κ → κ → Bool) (k : κ) (v : β) (m : List (κ × β)) :
    mapLookup k (mapInsert lt k v m) = some v := by
  induction m with
  | nil => simp [mapInsert, mapLookup]
  | cons e rest ih =>
    obtain ⟨k', v'⟩ := e
    unfold mapInsert
    split
    · simp [mapLookup]
    · split
      next h => simp [mapLookup]
      next h h2 => simp [mapLookup, h2, ih]

/-- Inserting under a different key does not change a lookup. -/
theorem mapLookup_insert_ne {κ β : Type} [DecidableEq κ]
    (lt : κ → κ → Bool) (k k' : κ) (v : β) (m : List (κ × β)) (hne : k ≠ k') :
    mapLookup k (mapInsert lt k' v m) = mapLookup k m := by
  induction m with
  | nil => simp [mapInsert, mapLookup, hne]
  | cons e rest ih =>
    obtain ⟨k'', v''⟩ := e
    unfold mapInsert
    split
    · simp [mapLookup, hne]
    · split
      next h =>
        subst h
        simp [mapLookup, hne]
      next h h2 => simp [mapLookup, ih]

/-- One mint-loop iteration either leaves the re-filled mempool alone or
re-inserts exactly the processed entry. -/
theorem mintStep_kept (cap : Nat) (s : MintState)
    (e : (Address × Nat) × Signed Transaction) :
    (mintStep cap s e).kept = s.kept ∨
    (mintStep cap s e).kept = mapInsert keyLt e.1 e.2 s.kept := by
  unfold mintStep
  dsimp only
  repeat' split
  all_goals first
  | exact Or.inl rfl
  | exact Or.inr rfl

/-- A key that is not among the processed entries keeps its re-filled
mempool binding across the mint loop. -/
theorem mint_loop_kept_lookup (cap : Nat)
    (L : List ((Address × Nat) × Signed Transaction)) (s : MintState)
    (key : Address × Nat) (hkey : key ∉ L.map (fun e => e.1)) :
    mapLookup key ((L.foldl (mintStep cap) s).kept) =
      mapLookup key s.kept := by
  induction L generalizing s with
  | nil => rfl
  | cons e rest ih =>
    rw [List.foldl_cons]
    have hk : key ≠ e.1 ∧ key ∉ rest.map (fun e => e.1) := by
      simpa [not_or] using hkey
    rw [ih _ hk.2]
    rcases mintStep_kept cap s e with h | h
    · rw [h]
    · rw [h, mapLookup_insert_ne _ _ _ _ _ hk.1]

/-- Every transaction in the mint loop's block came from the initial block
list or from one of the processed entries. -/
theorem mint_loop_txs_mem (cap : Nat)
    (L : List ((Address × Nat) × Signed Transaction)) (s : MintState)
    (t : Signed Transaction) (ht : t ∈ (L.foldl (mintStep cap) s).txs) :
    t ∈ s.txs ∨ ∃ k, (k, t) ∈ L := by
  induction L generalizing s with
  | nil => exact Or.inl ht
  | cons e rest ih =>
    rw [List.foldl_cons] at ht
    rcases ih _ ht with h | ⟨k, hk⟩
    · rcases mintStep_txs cap s e with h2 | h2
      · rw [h2] at h
        exact Or.inl h
      · rw [h2] at h
        rcases List.mem_append.mp h with h3 | h3
        · exact Or.inl h3
        · have h4 : t = e.2 := by simpa using h3
          exact Or.inr ⟨e.1, by rw [h4]; exact List.mem_cons_self _ _⟩
    · exact Or.inr ⟨k, List.mem_cons_of_mem _ hk⟩

/-- Block transactions already selected survive the rest of the mint
loop. -/
theorem mint_loop_txs_mono (cap : Nat)
    (L : List ((Address × Nat) × Signed Transaction)) (s : MintState)
    (t : Signed Transaction) (h : t ∈ s.txs) :
    t ∈ (L.foldl (mintStep cap) s).txs := by
  induction L generalizing s with
  | nil => exact h
  | cons e rest ih =>
    rw [List.foldl_cons]
    refine ih _ ?_
    rcases mintStep_txs cap s e with h2 | h2 <;> rw [h2]
    · exact h
    · exact List.mem_append_left _ h

/-- An `isNonceReusedErr` outcome is a `NonceReused` error. -/
theorem isNonceReusedErr_elim (r : Except Error Wallet)
    (h : isNonceReusedErr r = true) :
    ∃ p q, r = .error (.NonceReused p q) := by
  cases r with
  | ok w => simp [isNonceReusedErr] at h
  | error e =>
    cases e with
    | NonceReused p q => exact ⟨p, q, rfl⟩
    | InvalidSignature => simp [isNonceReusedErr] at h
    | InsufficientFunds => simp [isNonceReusedErr] at h
    | InvalidBlockValidator => simp [isNonceReusedErr] at h

/-- An `isOtherErr` outcome is one of the three non-`NonceReused`
errors. -/
theorem isOtherErr_elim (r : Except Error Wallet)
    (h : isOtherErr r = true) :
    r = .error .InvalidSignature ∨ r = .error .InsufficientFunds ∨
    r = .error .InvalidBlockValidator := by
  unfold isOtherErr at h
  cases r with
  | ok w => exact Bool.noConfusion h
  | error e =>
    cases e with
    | InvalidSignature => exact Or.inl rfl
    | InsufficientFunds => exact Or.inr (Or.inl rfl)
    | NonceReused p q => exact Bool.noConfusion h
    | InvalidBlockValidator => exact Or.inr (Or.inr rfl)

/-- C8: during `Node::mint_block`, a pending transaction whose
sender-wallet application fails with `NonceReused` at its processing
point (the mempool prefix `pre` already processed and the block not yet
full) is removed permanently — it appears neither in the minted block nor
in the mempool afterwards — while a transaction failing with any other
error (such as `InsufficientFunds`) is excluded from the block but
re-inserted into the mempool under its `(sender, nonce)` key. -/
theorem C8_mint_error_classes (n : Node) (now : Int) (n' : Node)
    (sb : Signed Block)
    (pre post : List ((Address × Nat) × Signed Transaction))
    (key : Address × Nat) (tx : Signed Transaction)
    (hmint : n.mint_block now = some (n', sb))
    (hsplit : n.pending_transactions = pre ++ (key, tx) :: post)
    (hwf : PendingWF n.pending_transactions)
    (hnodup : (n.pending_transactions.map (fun e => e.1)).Nodup)
    (hcap : (mintPointState n pre).txs.length < n.capacity) :
    (isNonceReusedErr (mintSenderApply n pre tx) = true →
      mapLookup key n'.pending_transactions = none ∧
      key ∉ sb.data.transactions.map
        (fun t => (t.data.sender_address, t.data.nonce))) ∧
    (isOtherErr (mintSenderApply n pre tx) = true →
      mapLookup key n'.pending_transactions = some tx ∧
      key ∉ sb.data.transactions.map
        (fun t => (t.data.sender_address, t.data.nonce))) := by
  obtain ⟨hpend, htxs⟩ := mint_block_eq n now n' sb hmint
  have hkeys : key ∉ pre.map (fun e => e.1) ∧
      key ∉ post.map (fun e => e.1) := by
    rw [hsplit, List.map_append, List.map_cons, List.nodup_append] at hnodup
    obtain ⟨h1, h2, h3⟩ := hnodup
    exact ⟨fun hin => h3 hin (List.mem_cons_self _ _),
      (List.nodup_cons.mp h2).1⟩
  have hfold : mintPointState n n.pending_transactions =
      post.foldl (mintStep n.capacity)
        (mintStep n.capacity (mintPointState n pre) (key, tx)) := by
    unfold mintPointState
    rw [hsplit, List.foldl_append, List.foldl_cons]
  have hblock : ∀ s1 : MintState,
      s1.txs = (mintPointState n pre).txs →
      key ∉ (post.foldl (mintStep n.capacity) s1).txs.map
        (fun t => (t.data.sender_address, t.data.nonce)) := by
    intro s1 hts hin
    rw [List.mem_map] at hin
    obtain ⟨t, htmem, htkey⟩ := hin
    rcases mint_loop_txs_mem _ _ _ _ htmem with h | ⟨k, hk⟩
    · rw [hts] at h
      unfold mintPointState at h
      rcases mint_loop_txs_mem _ _ _ _ h with h0 | ⟨k, hk⟩
      · simp at h0
      · have hkk : k = (t.data.sender_address, t.data.nonce) :=
          hwf (k, t) (by rw [hsplit]; exact List.mem_append_left _ hk)
        apply hkeys.1
        have hmm : (k, t).1 ∈ pre.map (fun e => e.1) :=
          List.mem_map_of_mem _ hk
        exact (hkk.trans htkey) ▸ hmm
    · have hkk : k = (t.data.sender_address, t.data.nonce) :=
        hwf (k, t) (by
          rw [hsplit]
          exact List.mem_append_right _ (List.mem_cons_of_mem _ hk))
      apply hkeys.2
      have hmm : (k, t).1 ∈ post.map (fun e => e.1) :=
        List.mem_map_of_mem _ hk
      exact (hkk.trans htkey) ▸ hmm
  constructor
  · intro hNR
    obtain ⟨p, q, hpq⟩ := isNonceReusedErr_elim _ hNR
    unfold mintSenderApply at hpq
    have hsmid : (mintStep n.capacity (mintPointState n pre) (key, tx)).kept =
        (mintPointState n pre).kept ∧
        (mintStep n.capacity (mintPointState n pre) (key, tx)).txs =
        (mintPointState n pre).txs := by
      unfold mintStep
      dsimp only
      rw [if_pos hcap, hpq]
      exact ⟨rfl, rfl⟩
    constructor
    · rw [hpend, hfold, mint_loop_kept_lookup _ _ _ _ hkeys.2, hsmid.1]
      have hlook : mapLookup key ((mintPointState n pre).kept) =
          mapLookup key ([] : List ((Address × Nat) × Signed Transaction)) := by
        unfold mintPointState
        exact mint_loop_kept_lookup _ _ _ _ hkeys.1
      simpa using hlook
    · rw [htxs, hfold]
      exact hblock _ hsmid.2
  · intro hOE
    have hsmid : (mintStep n.capacity (mintPointState n pre) (key, tx)).kept =
        mapInsert keyLt key tx (mintPointState n pre).kept ∧
        (mintStep n.capacity (mintPointState n pre) (key, tx)).txs =
        (mintPointState n pre).txs := by
      rcases isOtherErr_elim _ hOE with hpq | hpq | hpq <;>
        unfold mintSenderApply at hpq <;>
        (unfold mintStep; dsimp only; rw [if_pos hcap, hpq]; exact ⟨rfl, rfl⟩)
    constructor
    · rw [hpend, hfold, mint_loop_kept_lookup _ _ _ _ hkeys.2, hsmid.1,
        mapLookup_insert_self]
    · rw [htxs, hfold]
      exact hblock _ hsmid.2

/-- Witness for C8 at the concrete two-transaction mempool: the stale
nonce-`0` transaction of sender `21` (wallet nonce already `1`) is
dropped from both the block and the mempool. -/
theorem C8_witness :
    (isNonceReusedErr (mintSenderApply c8Pending [] c8TxStale) = true →
      mapLookup ((21 : Address), (0 : Nat)) c8After.pending_transactions = none ∧
      ((21 : Address), (0 : Nat)) ∉ c8Minted.data.transactions.map
        (fun t => (t.data.sender_address, t.data.nonce))) ∧
    (isOtherErr (mintSenderApply c8Pending [] c8TxStale) = true →
      mapLookup ((21 : Address), (0 : Nat)) c8After.pending_transactions =
        some c8TxStale ∧
      ((21 : Address), (0 : Nat)) ∉ c8Minted.data.transactions.map
        (fun t => (t.data.sender_address, t.data.nonce))) :=
  C8_mint_error_classes c8Pending 9 c8After c8Minted []
    [((21, 1), c8TxPoor)] (21, 0) c8TxStale (by decide) (by decide)
    (by decide) (by decide) (by decide)

/-! Claim C5 (amended part): machinery. -/

/-- A successful `validate_tx` returns its input unchanged, implies a
verifying envelope, and — for the wallet's own transactions — a
non-regressing nonce. -/
theorem validate_ok_spec (w : Wallet) (tx : Signed Transaction)
    (s : Signed Transaction) (h : w.validate_tx tx = .ok s) :
    s = tx ∧ tx.verify digestTx = none ∧
    (tx.data.sender_address = w.address → w.nonce ≤ tx.data.nonce) := by
  unfold Wallet.validate_tx at h
  cases hv : tx.verify digestTx with
  | some e =>
    rw [hv] at h
    exact Except.noConfusion h
  | none =>
    simp only [hv] at h
    by_cases hs : tx.data.sender_address = w.address
    · rw [if_pos hs] at h
      by_cases hn : tx.data.nonce < w.nonce
      · rw [if_pos hn] at h
        exact Except.noConfusion h
      · rw [if_neg hn] at h
        refine ⟨?_, rfl, fun _ => by omega⟩
        cases hk : tx.data.kind <;> simp only [hk] at h <;> split at h <;>
          first
          | exact Except.noConfusion h
          | (injection h with h; exact h.symm)
    · rw [if_neg hs] at h
      injection h with h
      exact ⟨h.symm, rfl, fun hc => absurd hc hs⟩

/-- A successful `apply_tx` keeps the wallet's address, implies a
verifying envelope, sets the nonce to `tx.nonce + 1` when the wallet is
the sender (with `tx.nonce` at least the previous nonce), and keeps the
nonce otherwise. -/
theorem apply_ok_spec (w w' : Wallet) (tx : Signed Transaction)
    (h : w.apply_tx tx = .ok w') :
    w'.address = w.address ∧ tx.verify digestTx = none ∧
    (tx.data.sender_address = w.address →
      w.nonce ≤ tx.data.nonce ∧ w'.nonce = tx.data.nonce + 1) ∧
    (tx.data.sender_address ≠ w.address → w'.nonce = w.nonce) := by
  unfold Wallet.apply_tx at h
  cases hval : w.validate_tx tx <;> rw [hval] at h
  case error => exact Except.noConfusion h
  case ok stx' =>
    obtain ⟨hst, hver, hnle⟩ := validate_ok_spec w tx stx' hval
    subst hst
    injection h with h
    subst h
    refine ⟨?_, hver, ?_, ?_⟩
    · dsimp only
      repeat' split
      all_goals rfl
    · intro hs
      refine ⟨hnle hs, ?_⟩
      dsimp only
      rw [if_pos hs]
      repeat' split
      all_goals rfl
    · intro hs
      dsimp only
      rw [if_neg hs]
      repeat' split
      all_goals rfl

/-- Applying the same transaction again to the sender's updated wallet
fails with `NonceReused` (the recorded nonce is now one higher). -/
theorem apply_reapply_fails (w w' : Wallet) (tx : Signed Transaction)
    (hs : tx.data.sender_address = w.address)
    (h : w.apply_tx tx = .ok w') :
    w'.apply_tx tx = .error (.NonceReused tx.data.nonce (tx.data.nonce + 1)) := by
  obtain ⟨haddr, hver, hsn, -⟩ := apply_ok_spec w w' tx h
  obtain ⟨-, hn'⟩ := hsn hs
  unfold Wallet.apply_tx Wallet.validate_tx
  simp only [hver]
  rw [if_pos (show tx.data.sender_address = w'.address by rw [haddr]; exact hs)]
  rw [if_pos (show tx.data.nonce < w'.nonce by omega)]
  rw [hn']

/-- `set_stake` only changes the stake. -/
theorem set_stake_spec (w w' : Wallet) (amount : Nat)
    (h : w.set_stake amount = some w') :
    w'.nonce = w.nonce ∧ w'.address = w.address ∧ w'.stake = amount := by
  unfold Wallet.set_stake at h
  split at h
  · injection h with h
    subst h
    exact ⟨rfl, rfl, rfl⟩
  · exact Option.noConfusion h

/-- A successful lookup is a membership. -/
theorem mapLookup_mem {κ β : Type} [DecidableEq κ] (k : κ) (v : β)
    (m : List (κ × β)) (h : mapLookup k m = some v) : (k, v) ∈ m := by
  induction m with
  | nil => exact Option.noConfusion h
  | cons e rest ih =>
    obtain ⟨k', v'⟩ := e
    unfold mapLookup at h
    split at h
    next heq =>
      injection h with h
      subst h
      subst heq
      exact List.mem_cons_self _ _
    next heq => exact List.mem_cons_of_mem _ (ih h)

/-- Members of an insertion are the new binding or old members. -/
theorem mem_mapInsert {κ β : Type} [DecidableEq κ] (lt : κ → κ → Bool)
    (k : κ) (v : β) (m : List (κ × β)) (e : κ × β)
    (h : e ∈ mapInsert lt k v m) : e = (k, v) ∨ e ∈ m := by
  induction m with
  | nil => simpa [mapInsert] using h
  | cons p rest ih =>
    obtain ⟨k', v'⟩ := p
    unfold mapInsert at h
    split at h
    · rcases List.mem_cons.mp h with h1 | h1
      · exact Or.inl h1
      · exact Or.inr h1
    · split at h
      · rcases List.mem_cons.mp h with h1 | h1
        · exact Or.inl h1
        · exact Or.inr (List.mem_cons_of_mem _ h1)
      · rcases List.mem_cons.mp h with h1 | h1
        · exact Or.inr (h1 ▸ List.mem_cons_self _ _)
        · rcases ih h1 with h2 | h2
          · exact Or.inl h2
          · exact Or.inr (List.mem_cons_of_mem _ h2)

/-- Inserting a wallet stored under its own address preserves address
consistency. -/
theorem mapInsert_addrConsistent (lt : Address → Address → Bool)
    (k : Address) (w : Wallet) (m : List (Address × Wallet))
    (hA : AddrConsistent m) (hw : w.address = k) :
    AddrConsistent (mapInsert lt k w m) := by
  intro e he
  rcases mem_mapInsert lt k w m e he with h | h
  · rw [h]
    exact hw
  · exact hA e h

/-- The wallet handed out by `entry(k).or_insert_with(from_address k)` is
stored under address `k`. -/
theorem getOrInsert_fst_address (k : Address) (m : List (Address × Wallet))
    (hA : AddrConsistent m) :
    (getOrInsert addrLt k (Wallet.from_address k) m).1.address = k := by
  unfold getOrInsert
  cases hl : mapLookup k m with
  | none => rfl
  | some w => exact hA (k, w) (mapLookup_mem _ _ _ hl)

/-- The wallet handed out by the entry call carries the map's recorded
nonce for `k` (`0` when absent, as for a fresh wallet). -/
theorem getOrInsert_fst_nonce (k : Address) (m : List (Address × Wallet)) :
    (getOrInsert addrLt k (Wallet.from_address k) m).1.nonce = nonceOf m k := by
  unfold getOrInsert nonceOf
  cases hl : mapLookup k m with
  | none => rfl
  | some w => rfl

/-- Materializing an entry preserves address consistency. -/
theorem getOrInsert_snd_addrConsistent (k : Address)
    (m : List (Address × Wallet)) (hA : AddrConsistent m) :
    AddrConsistent ((getOrInsert addrLt k (Wallet.from_address k) m).2) := by
  unfold getOrInsert
  cases hl : mapLookup k m with
  | some w => exact hA
  | none => exact mapInsert_addrConsistent _ _ _ _ hA rfl

/-- The nonce view of a map after an insertion. -/
theorem nonceOf_insert (lt : Address → Address → Bool) (k : Address)
    (w : Wallet) (m : List (Address × Wallet)) (a : Address) :
    nonceOf (mapInsert lt k w m) a =
      if a = k then w.nonce else nonceOf m a := by
  unfold nonceOf
  by_cases h : a = k
  · subst h
    rw [mapLookup_insert_self]
    simp
  · rw [mapLookup_insert_ne _ _ _ _ _ h]
    simp [h]

/-- Materializing an entry does not change any recorded nonce (a fresh
wallet's nonce is `0`, the default for an absent entry). -/
theorem nonceOf_getOrInsert (k : Address) (m : List (Address × Wallet))
    (a : Address) :
    nonceOf ((getOrInsert addrLt k (Wallet.from_address k) m).2) a =
      nonceOf m a := by
  unfold getOrInsert
  cases hl : mapLookup k m with
  | some w => rfl
  | none =>
    rw [nonceOf_insert]
    by_cases h : a = k
    · subst h
      simp [nonceOf, hl, Wallet.from_address]
    · simp [h]

/-- A transaction whose nonce is below the sender wallet's recorded nonce
never applies. -/
theorem apply_nonce_low_fails (w : Wallet) (tx : Signed Transaction)
    (w' : Wallet) (hs : tx.data.sender_address = w.address)
    (hn : tx.data.nonce < w.nonce) : w.apply_tx tx ≠ .ok w' := by
  intro h
  have := ((apply_ok_spec _ _ _ h).2.2.1 hs).1
  omega

/-- Successful application of a block's transaction list keeps the wallet
map address-consistent and updates each address's recorded nonce by the
nonce bookkeeping fold: each transaction sets its sender's nonce to its
own nonce plus one, while recipient applications leave every nonce
unchanged. -/
theorem applyBlockTxs_ok_spec (selfAddr : Address)
    (txs : List (Signed Transaction)) (ws : List (Address × Wallet))
    (nw : Wallet) (fees : Nat) (ws' : List (Address × Wallet)) (nw' : Wallet)
    (fees' : Nat) (hA : AddrConsistent ws)
    (h : applyBlockTxs selfAddr txs ws nw fees = .ok (ws', nw', fees')) :
    AddrConsistent ws' ∧
    ∀ a, nonceOf ws' a = nonceFold a (nonceOf ws a) txs := by
  induction txs generalizing ws nw fees with
  | nil =>
    unfold applyBlockTxs at h
    injection h with h
    rw [Prod.ext_iff] at h
    obtain ⟨h1, -⟩ := h
    subst h1
    exact ⟨hA, fun a => rfl⟩
  | cons tx rest ih =>
    unfold applyBlockTxs at h
    dsimp only at h
    split at h
    next e happ => exact Except.noConfusion h
    next sw' happ =>
      have hga : (getOrInsert addrLt tx.data.sender_address
          (Wallet.from_address tx.data.sender_address) ws).1.address =
          tx.data.sender_address := getOrInsert_fst_address _ _ hA
      have hsw_addr : sw'.address = tx.data.sender_address := by
        rw [(apply_ok_spec _ _ _ happ).1, hga]
      have hsw_nonce : sw'.nonce = tx.data.nonce + 1 :=
        ((apply_ok_spec _ _ _ happ).2.2.1 hga.symm).2
      have hA1 : AddrConsistent (mapInsert addrLt tx.data.sender_address sw'
          ((getOrInsert addrLt tx.data.sender_address
            (Wallet.from_address tx.data.sender_address) ws).2)) :=
        mapInsert_addrConsistent _ _ _ _
          (getOrInsert_snd_addrConsistent _ _ hA) hsw_addr
      have hnon1 : ∀ a, nonceOf (mapInsert addrLt tx.data.sender_address sw'
          ((getOrInsert addrLt tx.data.sender_address
            (Wallet.from_address tx.data.sender_address) ws).2)) a =
          if tx.data.sender_address = a then tx.data.nonce + 1
          else nonceOf ws a := by
        intro a
        rw [nonceOf_insert, nonceOf_getOrInsert]
        by_cases hx : a = tx.data.sender_address
        · subst hx
          rw [if_pos rfl, if_pos rfl, hsw_nonce]
        · rw [if_neg hx, if_neg (fun hc => hx hc.symm)]
      have hfinal : ∀ (m : List (Address × Wallet)) (nwx : Wallet) (fx : Nat),
          AddrConsistent m →
          (∀ a, nonceOf m a =
            if tx.data.sender_address = a then tx.data.nonce + 1
            else nonceOf ws a) →
          applyBlockTxs selfAddr rest m nwx fx = .ok (ws', nw', fees') →
          AddrConsistent ws' ∧
          ∀ a, nonceOf ws' a = nonceFold a (nonceOf ws a) (tx :: rest) := by
        intro m nwx fx hAm hm hrec
        obtain ⟨hA3, hN⟩ := ih _ _ _ hAm hrec
        refine ⟨hA3, fun a => ?_⟩
        rw [hN a, hm a]
        unfold nonceFold
        rw [List.foldl_cons]
      have hrstep : ∀ (receiver : Address) (rw' : Wallet),
          (getOrInsert addrLt receiver (Wallet.from_address receiver)
            (mapInsert addrLt tx.data.sender_address sw'
              ((getOrInsert addrLt tx.data.sender_address
                (Wallet.from_address tx.data.sender_address)
                ws).2))).1.apply_tx tx = .ok rw' →
          AddrConsistent (mapInsert addrLt receiver rw'
            ((getOrInsert addrLt receiver (Wallet.from_address receiver)
              (mapInsert addrLt tx.data.sender_address sw'
                ((getOrInsert addrLt tx.data.sender_address
                  (Wallet.from_address tx.data.sender_address)
                  ws).2))).2)) ∧
          ∀ a, nonceOf (mapInsert addrLt receiver rw'
            ((getOrInsert addrLt receiver (Wallet.from_address receiver)
              (mapInsert addrLt tx.data.sender_address sw'
                ((getOrInsert addrLt tx.data.sender_address
                  (Wallet.from_address tx.data.sender_address)
                  ws).2))).2)) a =
            if tx.data.sender_address = a then tx.data.nonce + 1
            else nonceOf ws a := by
        intro receiver rw' happ2
        have hraddr : (getOrInsert addrLt receiver
            (Wallet.from_address receiver)
            (mapInsert addrLt tx.data.sender_address sw'
              ((getOrInsert addrLt tx.data.sender_address
                (Wallet.from_address tx.data.sender_address)
                ws).2))).1.address = receiver :=
          getOrInsert_fst_address _ _ hA1
        by_cases hsr : tx.data.sender_address = receiver
        · exfalso
          have hfst : (getOrInsert addrLt receiver
              (Wallet.from_address receiver)
              (mapInsert addrLt tx.data.sender_address sw'
                ((getOrInsert addrLt tx.data.sender_address
                  (Wallet.from_address tx.data.sender_address)
                  ws).2))).1 = sw' := by
            unfold getOrInsert
            rw [← hsr, mapLookup_insert_self]
          rw [hfst] at happ2
          exact apply_nonce_low_fails sw' tx rw'
            (by rw [hsw_addr, hsr]) (by omega) happ2
        · have hrnonce : rw'.nonce = nonceOf (mapInsert addrLt
              tx.data.sender_address sw'
              ((getOrInsert addrLt tx.data.sender_address
                (Wallet.from_address tx.data.sender_address)
                ws).2)) receiver := by
            rw [(apply_ok_spec _ _ _ happ2).2.2.2
              (by rw [hraddr]; exact hsr), getOrInsert_fst_nonce]
          have hrw_addr : rw'.address = receiver := by
            rw [(apply_ok_spec _ _ _ happ2).1, hraddr]
          refine ⟨mapInsert_addrConsistent _ _ _ _
            (getOrInsert_snd_addrConsistent _ _ hA1) hrw_addr, fun a => ?_⟩
          rw [← hnon1 a]
          rw [nonceOf_insert, nonceOf_getOrInsert]
          by_cases hx : a = receiver
          · subst hx
            rw [if_pos rfl, hrnonce]
          · rw [if_neg hx]
      split at h
      next amount receiver hk =>
        split at h
        next e happ2 => exact Except.noConfusion h
        next rw' happ2 =>
          by_cases hsel : receiver = selfAddr
          · rw [if_pos hsel] at h
            split at h
            next e happ3 => exact Except.noConfusion h
            next nw2 happ3 =>
              exact hfinal _ _ _ (hrstep receiver rw' happ2).1
                (hrstep receiver rw' happ2).2 h
          · rw [if_neg hsel] at h
            exact hfinal _ _ _ (hrstep receiver rw' happ2).1
              (hrstep receiver rw' happ2).2 h
      next text receiver hk =>
        split at h
        next e happ2 => exact Except.noConfusion h
        next rw' happ2 =>
          by_cases hsel : receiver = selfAddr
          · rw [if_pos hsel] at h
            split at h
            next e happ3 => exact Except.noConfusion h
            next nw2 happ3 =>
              exact hfinal _ _ _ (hrstep receiver rw' happ2).1
                (hrstep receiver rw' happ2).2 h
          · rw [if_neg hsel] at h
            exact hfinal _ _ _ (hrstep receiver rw' happ2).1
              (hrstep receiver rw' happ2).2 h
      next amount hk => exact hfinal _ _ _ hA1 hnon1 h

/-- A successful `handle_block` appends the block and updates the nonce
view of the committed wallet map by the block's nonce bookkeeping fold
(the validator's fee credit touches no nonce). -/
theorem hb_ok_spec (draw : Hash → Nat → Nat) (n n' : Node) (b : Signed Block)
    (hA : AddrConsistent n.wallets)
    (h : n.handle_block draw b = some (n', none)) :
    AddrConsistent n'.wallets ∧ n'.blockchain = n.blockchain ++ [b] ∧
    ∀ a, nonceOf n'.wallets a =
      nonceFold a (nonceOf n.wallets a) b.data.transactions := by
  unfold Node.handle_block at h
  split at h
  · injection h with h
    rw [Prod.ext_iff] at h
    exact absurd h.2 (by simp)
  · split at h
    · exact Option.noConfusion h
    · split at h
      · injection h with h
        rw [Prod.ext_iff] at h
        exact absurd h.2 (by simp)
      · split at h
        next e nwx heq =>
          injection h with h
          rw [Prod.ext_iff] at h
          exact absurd h.2 (by simp)
        next ws nwx tfees heq =>
          injection h with h
          rw [Prod.ext_iff] at h
          obtain ⟨h1, -⟩ := h
          subst h1
          obtain ⟨hA2, hN⟩ := applyBlockTxs_ok_spec n.address
            b.data.transactions n.wallets n.node_wallet 0 ws nwx tfees hA heq
          refine ⟨?_, rfl, fun a => ?_⟩
          · dsimp only
            apply mapInsert_addrConsistent
            · exact getOrInsert_snd_addrConsistent _ _ hA2
            · show ((getOrInsert addrLt b.data.validator
                (Wallet.from_address b.data.validator) ws).1.add_funds
                  tfees).address = b.data.validator
              have hva := getOrInsert_fst_address b.data.validator ws hA2
              simpa [Wallet.add_funds] using hva
          · dsimp only
            rw [nonceOf_insert]
            by_cases hx : a = b.data.validator
            · rw [if_pos hx]
              have h1 : ((getOrInsert addrLt b.data.validator
                  (Wallet.from_address b.data.validator)
                  ws).1.add_funds tfees).nonce =
                  nonceOf ws b.data.validator := by
                simp [Wallet.add_funds, getOrInsert_fst_nonce]
              rw [h1, ← hx]
              exact hN a
            · rw [if_neg hx, nonceOf_getOrInsert]
              exact hN a

/-- The nonce bookkeeping of an extended chain folds the new block's
transactions over the old chain's result. -/
theorem lastNonceSucc_append (c : List (Signed Block)) (b : Signed Block)
    (a : Address) :
    lastNonceSucc (c ++ [b]) a =
      nonceFold a (lastNonceSucc c a) b.data.transactions := by
  unfold lastNonceSucc chainTxs nonceFold
  rw [List.map_append, List.flatten_append, List.foldl_append]
  simp

/-- Every freshly constructed node satisfies the C5 invariant: all wallet
nonces are `0` and the only committed transaction is the genesis coinbase
from the invalid address. -/
theorem node_new_inv (pk sk gpk funds cap : Nat) (n : Node)
    (h : Node.new pk sk gpk funds cap = some n) : NodeInv n := by
  have hAbase : AddrConsistent (mapInsert addrLt (Address.from_public_key pk)
      (Wallet.from_address (Address.from_public_key pk)) []) := by
    intro e he
    simp [mapInsert] at he
    rw [he]
    rfl
  have hb : ∀ x, nonceOf (mapInsert addrLt (Address.from_public_key pk)
      (Wallet.from_address (Address.from_public_key pk)) []) x = 0 := by
    intro x
    rw [nonceOf_insert]
    by_cases hx : x = Address.from_public_key pk <;>
      simp [hx, Wallet.from_address, nonceOf, mapLookup]
  simp only [Node.new] at h
  split at h
  · exact Option.noConfusion h
  next gw' heq =>
    injection h with h
    subst h
    obtain ⟨hn0, ha0, -⟩ := set_stake_spec _ _ _ heq
    have hgaddr : gw'.address = Address.from_public_key gpk := by
      rw [ha0]
      show ((getOrInsert addrLt (Address.from_public_key gpk)
        (Wallet.from_address (Address.from_public_key gpk))
        (mapInsert addrLt (Address.from_public_key pk)
          (Wallet.from_address (Address.from_public_key pk)) [])).1.add_funds
        funds).address = Address.from_public_key gpk
      have := getOrInsert_fst_address (Address.from_public_key gpk)
        (mapInsert addrLt (Address.from_public_key pk)
          (Wallet.from_address (Address.from_public_key pk)) []) hAbase
      simpa [Wallet.add_funds] using this
    have hgnonce : gw'.nonce = 0 := by
      rw [hn0]
      show ((getOrInsert addrLt (Address.from_public_key gpk)
        (Wallet.from_address (Address.from_public_key gpk))
        (mapInsert addrLt (Address.from_public_key pk)
          (Wallet.from_address (Address.from_public_key pk)) [])).1.add_funds
        funds).nonce = 0
      have := getOrInsert_fst_nonce (Address.from_public_key gpk)
        (mapInsert addrLt (Address.from_public_key pk)
          (Wallet.from_address (Address.from_public_key pk)) [])
      simp [Wallet.add_funds, this, hb]
    constructor
    · dsimp only
      apply mapInsert_addrConsistent
      · exact getOrInsert_snd_addrConsistent _ _ hAbase
      · exact hgaddr
    · intro a ha
      dsimp only
      rw [nonceOf_insert, nonceOf_getOrInsert, hb]
      have hL : nonceFold a 0 [Signed.new_invalid digestTx
          { sender_address := Address.invalid
            kind := .Coin funds (Address.from_public_key gpk)
            nonce := 0 }] = 0 := by
        unfold nonceFold
        simp only [List.foldl_cons, List.foldl_nil, Signed.new_invalid]
        rw [if_neg (fun hc => ha hc.symm)]
      unfold lastNonceSucc chainTxs
      simp only [List.map_cons, List.map_nil, List.flatten]
      rw [show (Signed.new_invalid digestBlock
        { timestamp := MIN_UTC
          transactions := [Signed.new_invalid digestTx
            { sender_address := Address.invalid
              kind := .Coin funds (Address.from_public_key gpk)
              nonce := 0 }]
          validator := Address.invalid
          parent_hash := genesisParentHash } : Signed Block).data.transactions
        = [Signed.new_invalid digestTx
            { sender_address := Address.invalid
              kind := .Coin funds (Address.from_public_key gpk)
              nonce := 0 }] from rfl]
      rw [show ([Signed.new_invalid digestTx
          { sender_address := Address.invalid
            kind := .Coin funds (Address.from_public_key gpk)
            nonce := 0 }] ++ [] : List (Signed Transaction)) =
        [Signed.new_invalid digestTx
          { sender_address := Address.invalid
            kind := .Coin funds (Address.from_public_key gpk)
            nonce := 0 }] from by simp]
      rw [hL]
      by_cases hx : a = Address.from_public_key gpk
      · rw [if_pos hx, hgnonce]
      · rw [if_neg hx]

/-- Every reachable node state satisfies the C5 invariant. -/
theorem reachable_inv (draw : Hash → Nat → Nat) (n : Node)
    (h : Reachable draw n) : NodeInv n := by
  induction h with
  | init pk sk gpk funds cap n hnew => exact node_new_inv _ _ _ _ _ _ hnew
  | tx n stx n' r hr hstep ih =>
    obtain ⟨hw, hc⟩ := handle_transaction_frame n stx
    rw [hstep] at hw hc
    exact ⟨hw ▸ ih.1, fun a ha => by rw [hw, hc]; exact ih.2 a ha⟩
  | block n b n' r hr hstep ih =>
    cases r with
    | some e =>
      obtain ⟨hw, -, hc⟩ := hb_error_frame draw n n' b e hstep
      exact ⟨hw ▸ ih.1, fun a ha => by rw [hw, hc]; exact ih.2 a ha⟩
    | none =>
      obtain ⟨hA2, hc, hN⟩ := hb_ok_spec draw n n' b ih.1 hstep
      refine ⟨hA2, fun a ha => ?_⟩
      rw [hN a, ih.2 a ha, hc, lastNonceSucc_append]
  | mint n now n' b hr hstep ih =>
    obtain ⟨hw, hc⟩ := mint_frame n now n' b hstep
    exact ⟨hw ▸ ih.1, fun a ha => by rw [hw, hc]; exact ih.2 a ha⟩

/-- C5 (amended): in every reachable node state, for every sender address
other than the invalid (genesis coinbase) address, the recorded wallet
nonce equals one more than the nonce of that sender's last committed
transaction (`0` if there is none).  Because `validate_tx` only requires
`tx.nonce ≥ wallet.nonce`, committed nonces may skip, so the recorded
nonce can exceed the count of committed transactions (see the
counterexample). -/
theorem C5_nonce_tracks_last_committed (draw : Hash → Nat → Nat) (n : Node)
    (a : Address) (h : Reachable draw n) (ha : a ≠ Address.invalid) :
    nonceOf n.wallets a = lastNonceSucc n.blockchain a :=
  (reachable_inv draw n h).2 a ha

/-- Witness for C5's amended theorem at the skipped-nonce state. -/
theorem C5_witness :
    nonceOf c5After.wallets 30 = lastNonceSucc c5After.blockchain 30 :=
  C5_nonce_tracks_last_committed draw0 c5After 30
    (Reachable.block cNode c5Block c5After none
      (Reachable.init 10 9 20 10000 5 cNode (by decide)) (by decide))
    (by decide)

/-! Claim C10. -/

/-- The `handle_block` transaction loop never succeeds on a list that
contains a `Coin`/`Message` transaction whose recipient equals its
sender: the sender application bumps the wallet's nonce, and the
recipient application then hits the same wallet and fails with
`NonceReused` (or an earlier transaction already failed). -/
theorem applyBlockTxs_self_fails (selfAddr : Address)
    (txs : List (Signed Transaction)) :
    ∀ (ws : List (Address × Wallet)) (nw : Wallet) (fees : Nat)
      (res : List (Address × Wallet) × Wallet × Nat),
      AddrConsistent ws → (∃ t ∈ txs, selfAddressed t.data = true) →
      applyBlockTxs selfAddr txs ws nw fees ≠ .ok res := by
  induction txs with
  | nil =>
    intro ws nw fees res hA hself h
    simp at hself
  | cons tx rest ih =>
    intro ws nw fees res hA hself h
    unfold applyBlockTxs at h
    dsimp only at h
    split at h
    next e happ => exact Except.noConfusion h
    next sw' happ =>
      have hga : (getOrInsert addrLt tx.data.sender_address
          (Wallet.from_address tx.data.sender_address) ws).1.address =
          tx.data.sender_address := getOrInsert_fst_address _ _ hA
      have hsw_addr : sw'.address = tx.data.sender_address := by
        rw [(apply_ok_spec _ _ _ happ).1, hga]
      have hsw_nonce : sw'.nonce = tx.data.nonce + 1 :=
        ((apply_ok_spec _ _ _ happ).2.2.1 hga.symm).2
      have hA1 : AddrConsistent (mapInsert addrLt tx.data.sender_address sw'
          ((getOrInsert addrLt tx.data.sender_address
            (Wallet.from_address tx.data.sender_address) ws).2)) :=
        mapInsert_addrConsistent _ _ _ _
          (getOrInsert_snd_addrConsistent _ _ hA) hsw_addr
      rcases hself with ⟨t, htmem, htself⟩
      rcases List.mem_cons.mp htmem with hteq | htrest
      · subst hteq
        split at h
        next amount receiver hk =>
          have hr : receiver = t.data.sender_address := by
            simpa [selfAddressed, Transaction.receiver, hk] using htself
          split at h
          next e happ2 => exact Except.noConfusion h
          next rw' happ2 =>
            have hfst : (getOrInsert addrLt receiver
                (Wallet.from_address receiver)
                (mapInsert addrLt t.data.sender_address sw'
                  ((getOrInsert addrLt t.data.sender_address
                    (Wallet.from_address t.data.sender_address)
                    ws).2))).1 = sw' := by
              unfold getOrInsert
              rw [hr, mapLookup_insert_self]
            rw [hfst] at happ2
            exact apply_nonce_low_fails sw' t rw'
              (by rw [hsw_addr]) (by omega) happ2
        next text receiver hk =>
          have hr : receiver = t.data.sender_address := by
            simpa [selfAddressed, Transaction.receiver, hk] using htself
          split at h
          next e happ2 => exact Except.noConfusion h
          next rw' happ2 =>
            have hfst : (getOrInsert addrLt receiver
                (Wallet.from_address receiver)
                (mapInsert addrLt t.data.sender_address sw'
                  ((getOrInsert addrLt t.data.sender_address
                    (Wallet.from_address t.data.sender_address)
                    ws).2))).1 = sw' := by
              unfold getOrInsert
              rw [hr, mapLookup_insert_self]
            rw [hfst] at happ2
            exact apply_nonce_low_fails sw' t rw'
              (by rw [hsw_addr]) (by omega) happ2
        next amount hk =>
          simp [selfAddressed, Transaction.receiver, hk] at htself
      · split at h
        next amount receiver hk =>
          split at h
          next e happ2 => exact Except.noConfusion h
          next rw' happ2 =>
            have hrw_addr : rw'.address = receiver := by
              rw [(apply_ok_spec _ _ _ happ2).1,
                getOrInsert_fst_address _ _ hA1]
            have hA2 : AddrConsistent (mapInsert addrLt receiver rw'
                ((getOrInsert addrLt receiver (Wallet.from_address receiver)
                  (mapInsert addrLt tx.data.sender_address sw'
                    ((getOrInsert addrLt tx.data.sender_address
                      (Wallet.from_address tx.data.sender_address)
                      ws).2))).2)) :=
              mapInsert_addrConsistent _ _ _ _
                (getOrInsert_snd_addrConsistent _ _ hA1) hrw_addr
            by_cases hsel : receiver = selfAddr
            · rw [if_pos hsel] at h
              split at h
              next e happ3 => exact Except.noConfusion h
              next nw2 happ3 =>
                exact ih _ _ _ _ hA2 ⟨t, htrest, htself⟩ h
            · rw [if_neg hsel] at h
              exact ih _ _ _ _ hA2 ⟨t, htrest, htself⟩ h
        next text receiver hk =>
          split at h
          next e happ2 => exact Except.noConfusion h
          next rw' happ2 =>
            have hrw_addr : rw'.address = receiver := by
              rw [(apply_ok_spec _ _ _ happ2).1,
                getOrInsert_fst_address _ _ hA1]
            have hA2 : AddrConsistent (mapInsert addrLt receiver rw'
                ((getOrInsert addrLt receiver (Wallet.from_address receiver)
                  (mapInsert addrLt tx.data.sender_address sw'
                    ((getOrInsert addrLt tx.data.sender_address
                      (Wallet.from_address tx.data.sender_address)
                      ws).2))).2)) :=
              mapInsert_addrConsistent _ _ _ _
                (getOrInsert_snd_addrConsistent _ _ hA1) hrw_addr
            by_cases hsel : receiver = selfAddr
            · rw [if_pos hsel] at h
              split at h
              next e happ3 => exact Except.noConfusion h
              next nw2 happ3 =>
                exact ih _ _ _ _ hA2 ⟨t, htrest, htself⟩ h
            · rw [if_neg hsel] at h
              exact ih _ _ _ _ hA2 ⟨t, htrest, htself⟩ h
        next amount hk => exact ih _ _ _ _ hA1 ⟨t, htrest, htself⟩ h

/-- The mint loop includes a self-addressed transaction whose
sender-wallet application succeeds (the recipient application is elided
when sender equals recipient). -/
theorem mint_self_included (n : Node) (now : Int) (n' : Node)
    (sb : Signed Block)
    (pre post : List ((Address × Nat) × Signed Transaction))
    (key : Address × Nat) (tx : Signed Transaction)
    (hmint : n.mint_block now = some (n', sb))
    (hsplit : n.pending_transactions = pre ++ (key, tx) :: post)
    (hcap : (mintPointState n pre).txs.length < n.capacity)
    (hok : exceptIsOk (mintSenderApply n pre tx) = true)
    (hself : selfAddressed tx.data = true) :
    tx ∈ sb.data.transactions := by
  obtain ⟨-, htxs⟩ := mint_block_eq n now n' sb hmint
  rw [htxs]
  have hfold : mintPointState n n.pending_transactions =
      post.foldl (mintStep n.capacity)
        (mintStep n.capacity (mintPointState n pre) (key, tx)) := by
    unfold mintPointState
    rw [hsplit, List.foldl_append, List.foldl_cons]
  rw [hfold]
  apply mint_loop_txs_mono
  obtain ⟨w', hw'⟩ : ∃ w', mintSenderApply n pre tx = .ok w' := by
    cases hr : mintSenderApply n pre tx with
    | error e => rw [hr] at hok; exact Bool.noConfusion hok
    | ok w' => exact ⟨w', rfl⟩
  have hrecv : tx.data.receiver = some tx.data.sender_address := by
    simpa [selfAddressed] using hself
  unfold mintStep
  dsimp only
  rw [if_pos hcap]
  unfold mintSenderApply at hw'
  simp only [hw', hrecv]
  rw [if_neg (fun hc => hc rfl)]
  exact List.mem_append_right _ (List.mem_cons_self _ _)

/-- C10: a signed block containing a `Coin` or `Message` transaction whose
recipient equals its sender is always rejected by `handle_block` (the
transaction is applied twice to the same wallet and the second
application fails with `NonceReused`, or an earlier check fails), whereas
`mint_block` skips the recipient application when sender equals recipient
and includes such a transaction in the minted block; hence a block minted
with a self-addressed transaction is rejected by `handle_block` on every
node whose wallet map is address-consistent. -/
theorem C10_self_addressed_tx :
    (∀ (draw : Hash → Nat → Nat) (n : Node) (b : Signed Block)
      (p : Node × Option Error), AddrConsistent n.wallets →
      (b.data.transactions.any (fun t => selfAddressed t.data)) = true →
      n.handle_block draw b = some p → p.2 ≠ none) ∧
    (∀ (n : Node) (now : Int) (n' : Node) (sb : Signed Block)
      (pre post : List ((Address × Nat) × Signed Transaction))
      (key : Address × Nat) (tx : Signed Transaction),
      n.mint_block now = some (n', sb) →
      n.pending_transactions = pre ++ (key, tx) :: post →
      (mintPointState n pre).txs.length < n.capacity →
      exceptIsOk (mintSenderApply n pre tx) = true →
      selfAddressed tx.data = true →
      tx ∈ sb.data.transactions) := by
  constructor
  · intro draw n b p hA hany hstep hnone
    obtain ⟨n2, hp⟩ : ∃ n2, p = (n2, none) := ⟨p.1, by rw [← hnone]⟩
    subst hp
    unfold Node.handle_block at hstep
    split at hstep
    · injection hstep with hstep
      rw [Prod.ext_iff] at hstep
      exact absurd hstep.2 (by simp)
    · split at hstep
      · exact Option.noConfusion hstep
      · split at hstep
        · injection hstep with hstep
          rw [Prod.ext_iff] at hstep
          exact absurd hstep.2 (by simp)
        · split at hstep
          next e nwx heq =>
            injection hstep with hstep
            rw [Prod.ext_iff] at hstep
            exact absurd hstep.2 (by simp)
          next ws nwx tfees heq =>
            have hex : ∃ t ∈ b.data.transactions,
                selfAddressed t.data = true := by
              simpa [List.any_eq_true] using hany
            exact applyBlockTxs_self_fails n.address b.data.transactions
              n.wallets n.node_wallet 0 (ws, nwx, tfees) hA hex heq
  · intro n now n' sb pre post key tx hmint hsplit hcap hok hself
    exact mint_self_included n now n' sb pre post key tx hmint hsplit hcap
      hok hself

/-- Witness for C10's block-rejection part: the block carrying the
self-addressed `c10Tx` is rejected by the concrete node. -/
theorem C10_witness : c10After.2 ≠ none :=
  C10_self_addressed_tx.1 draw0 cNode c10Block c10After (by decide)
    (by decide) (by decide)

end BlockChat
